import Mathlib

/-!
Shallow embedding of `src/daemon/keybindings.rs` (shpool keybindings engine).

Modelling conventions:
* Rust `u8` values are `Nat`s; where the code truncates (`as u8`) we take `% 256`.
* Fallible Rust functions returning `anyhow::Result` are modelled with
  `Except KbError`, where `KbError` is a structured rendering of the
  distinct `anyhow!` error messages in the source.
* A Rust panic (out-of-bounds slice/vec index, `unwrap` of `None`) is modelled
  by an outer `Option`: `none` means the code aborts.  This matters because
  the dense symbol table is built as `vec![None; u8::MAX as usize]`, i.e. with
  255 entries (indices 0..=254), so indexing it at 255 is out of bounds.
* Rust `HashMap` tables are modelled as association lists whose lookup takes
  the first matching key; insertion conses to the front.  In the source every
  `TrieTab::set` happens only after a failed `get`, so no shadowing arises.
* `char::is_whitespace` is modelled by `Char.isWhitespace` (ASCII whitespace);
  the binding mini-language is ASCII-only, and none of the proved statements
  depend on exotic Unicode whitespace.
-/

namespace Shpool

/-- Rust enum `Action` (one variant). -/
inductive Action where
  | Detach
deriving DecidableEq

/-- Structured rendering of the distinct `anyhow!` error messages produced by
the keybindings module. -/
inductive KbError where
  /-- "unexpected char: c" (lexer replay of buffered characters) -/
  | unexpectedChar (c : Char)
  /-- "internal error: trie bug" (lexer saw `TrieCursor::Start` from `advance`) -/
  | trieBug
  /-- "unexpected DASH token" (parser) -/
  | unexpectedDash
  /-- "invalid chord: ⟨chord⟩: invalid key" -/
  | invalidKey (chord : String)
  /-- "invalid chord: ⟨chord⟩: Ctrl is not a cord" -/
  | ctrlAlone (chord : String)
  /-- "invalid chord: ⟨chord⟩: Ctrl is the only supported mod key" -/
  | badModKey (chord : String)
  /-- "invalid chord: ⟨chord⟩: Ctrl cannot be repeated" -/
  | ctrlRepeated (chord : String)
  /-- "invalid chord: ⟨chord⟩" (length other than 1 or 2) -/
  | invalidChordLen (chord : String)
  /-- "unknown key code for chord: ⟨chord⟩" -/
  | unknownKeyCode (chord : String)
  /-- "shpool only supports up to 255 unique chords at a time" -/
  | chordLimit
deriving DecidableEq

/-- Is this error the chord-limit error? -/
def KbError.isChordLimit : KbError → Bool
  | .chordLimit => true
  | _ => false

/-- Rust enum `TrieCursor`.  The `Match` payload carries the node index and
the `is_partial` flag. -/
inductive TrieCursor where
  | Start
  | Match (idx : Nat) (pf : Bool)
  | NoMatch
deriving DecidableEq

/-- Rust struct `TrieNode<Sym, V, TT>` (the `PhantomData` field is dropped). -/
structure TrieNode (V T : Type) where
  value : Option V
  tab : T
deriving DecidableEq

/-- Rust struct `Trie<Sym, V, TT>`: an arena of nodes, node 0 is the root. -/
structure Trie (V T : Type) where
  nodes : List (TrieNode V T)
deriving DecidableEq

/-- Rust trait `TrieTab<Idx>`: the backing symbol table of a trie node.
`getT t s = none` and `setT t s j = none` model a panic (out-of-bounds
vector index); `getT t s = some e` yields the entry `e : Option Nat`. -/
structure TrieTab (σ : Type) (T : Type) where
  mkT : T
  getT : T → σ → Option (Option Nat)
  setT : T → σ → Nat → Option T

/-- First-match association-list lookup (model of `HashMap::get`). -/
def assocGet {σ : Type} [DecidableEq σ] : List (σ × Nat) → σ → Option Nat
  | [], _ => none
  | (k, v) :: rest, s => if k = s then some v else assocGet rest s

/-- Rust `impl<Sym> TrieTab<Sym> for HashMap<Sym, usize>`: lookups never
panic; insertion conses the new entry (first match wins on lookup). -/
def hashTT (σ : Type) [DecidableEq σ] : TrieTab σ (List (σ × Nat)) :=
  ⟨[], fun t s => some (assocGet t s), fun t s j => some ((s, j) :: t)⟩

/-- Rust `impl TrieTab<u8> for Vec<Option<usize>>` (also the `ChordAtom`
instance, which delegates to the wrapped `u8`): a dense table created as
`vec![None; u8::MAX as usize]`, i.e. with 255 slots.  `self[index]` panics
when `index` is out of bounds, hence the `Option` results. -/
def vecTT : TrieTab Nat (List (Option Nat)) :=
  ⟨List.replicate 255 none,
   fun t i => t[i]?,
   fun t i j => if i < t.length then some (t.set i (some j)) else none⟩

/-- `Trie::new`: a single root node with an empty table. -/
def Trie.new {σ V T : Type} (tt : TrieTab σ T) : Trie V T :=
  ⟨[⟨none, tt.mkT⟩]⟩

/-- The body of `Trie::advance` for a cursor standing at node `i`:
look the symbol up in node `i`'s table. -/
def Trie.advanceAt {σ V T : Type} (tt : TrieTab σ T) (t : Trie V T) (i : Nat)
    (sym : σ) : Option TrieCursor :=
  match t.nodes[i]? with
  | none => none
  | some node =>
    match tt.getT node.tab sym with
    | none => none
    | some none => some .NoMatch
    | some (some j) =>
      match t.nodes[j]? with
      | none => none
      | some child => some (.Match j child.value.isNone)

/-- Rust `Trie::advance`.  `NoMatch` is sticky; `Start` and `Match` look the
symbol up in the current node's table. -/
def Trie.advance {σ V T : Type} (tt : TrieTab σ T) (t : Trie V T)
    (cursor : TrieCursor) (sym : σ) : Option TrieCursor :=
  match cursor with
  | .NoMatch => some .NoMatch
  | .Start => Trie.advanceAt tt t 0 sym
  | .Match idx _ => Trie.advanceAt tt t idx sym

/-- The walking loop of `Trie::insert`: follow existing entries, create
fresh nodes for missing ones; returns the trie and the final node index. -/
def Trie.insertFrom {σ V T : Type} (tt : TrieTab σ T) :
    Trie V T → Nat → List σ → Option (Trie V T × Nat)
  | t, cur, [] => some (t, cur)
  | t, cur, sym :: rest =>
    match t.nodes[cur]? with
    | none => none
    | some node =>
      match tt.getT node.tab sym with
      | none => none
      | some (some nxt) => Trie.insertFrom tt t nxt rest
      | some none =>
        let idx := t.nodes.length
        match tt.setT node.tab sym idx with
        | none => none
        | some tab2 =>
          let nodes2 : List (TrieNode V T) :=
            (t.nodes ++ [TrieNode.mk none tt.mkT]).set cur (TrieNode.mk node.value tab2)
          Trie.insertFrom tt (Trie.mk nodes2) idx rest

/-- Rust `Trie::insert`: walk/extend the arena, then set the terminal value
at the final node (overwriting any prior value). -/
def Trie.insert {σ V T : Type} (tt : TrieTab σ T) (t : Trie V T)
    (seq : List σ) (v : V) : Option (Trie V T) :=
  match Trie.insertFrom tt t 0 seq with
  | none => none
  | some (t1, cur) =>
    match t1.nodes[cur]? with
    | none => none
    | some node => some ⟨t1.nodes.set cur ⟨some v, node.tab⟩⟩

/-- The loop of `Trie::contains`, starting from an arbitrary cursor. -/
def Trie.containsGo {σ V T : Type} (tt : TrieTab σ T) (t : Trie V T) :
    TrieCursor → List σ → Option Bool
  | cursor, [] =>
    match cursor with
    | .Start =>
      match t.nodes[0]? with
      | none => none
      | some nd => some nd.value.isSome
    | .Match _ pf => some (!pf)
    | .NoMatch => some false
  | cursor, sym :: rest =>
    match Trie.advance tt t cursor sym with
    | none => none
    | some .NoMatch => some false
    | some c2 => Trie.containsGo tt t c2 rest

/-- Rust `Trie::contains`: scan the key from `Start`; an empty key checks the
root's value, otherwise a final complete (non-partial) match is required. -/
def Trie.contains {σ V T : Type} (tt : TrieTab σ T) (t : Trie V T)
    (seq : List σ) : Option Bool :=
  Trie.containsGo tt t .Start seq

/-- Rust `Trie::get`: the terminal value under a `Match` cursor
(indexing `self.nodes[idx]` panics when `idx` is out of bounds). -/
def Trie.getC {σ V T : Type} (_tt : TrieTab σ T) (t : Trie V T)
    (cursor : TrieCursor) : Option (Option V) :=
  match cursor with
  | .Match idx _ =>
    match t.nodes[idx]? with
    | none => none
    | some nd => some nd.value
  | _ => some none

/-- Rust enum `Token`. -/
inductive Token where
  | Key (s : String)
  | Dash
deriving DecidableEq

/-- The replay loop in `Lexer::tokenize`'s `NoMatch` branch: each buffered
character must be `-` (a `Dash`) or a lowercase letter (a one-char `Key`). -/
def replayAll : List Char → Except KbError (List Token)
  | [] => .ok []
  | c :: rest =>
    if c = '-' then (replayAll rest).map (fun ts => Token.Dash :: ts)
    else if 'a' ≤ c ∧ c ≤ 'z' then
      (replayAll rest).map (fun ts => Token.Key (String.mk [c]) :: ts)
    else .error (.unexpectedChar c)

/-- The `Lexer::new` keyword trie: insert "Ctrl" then "Space" into a fresh
character trie. -/
def wordsTrieO : Option (Trie Unit (List (Char × Nat))) :=
  match Trie.insert (hashTT Char) (Trie.new (hashTT Char)) "Ctrl".data () with
  | none => none
  | some t1 => Trie.insert (hashTT Char) t1 "Space".data ()

/-- The main loop of `Lexer::tokenize`: skip whitespace, advance the keyword
cursor, and either keep buffering (partial match), emit a keyword `Key`
(complete match), or replay the buffer as single-character tokens
(`NoMatch`).  A `Start` result from `advance` is the "internal error:
trie bug" branch. -/
def tokenizeGo (wt : Trie Unit (List (Char × Nat))) :
    TrieCursor → List Char → List Token → List Char →
    Option (Except KbError (List Token))
  | _, _, toks, [] => some (.ok toks)
  | cursor, wc, toks, c :: rest =>
    if c.isWhitespace then tokenizeGo wt cursor wc toks rest
    else
      match Trie.advance (hashTT Char) wt cursor c with
      | none => none
      | some .Start => some (.error .trieBug)
      | some .NoMatch =>
        match replayAll (wc ++ [c]) with
        | .error e => some (.error e)
        | .ok newToks => tokenizeGo wt .Start [] (toks ++ newToks) rest
      | some (.Match i pf) =>
        if pf then tokenizeGo wt (.Match i true) (wc ++ [c]) toks rest
        else tokenizeGo wt .Start [] (toks ++ [Token.Key (String.mk (wc ++ [c]))]) rest

/-- Rust `Lexer::tokenize` (the `Lexer` value only holds the keyword trie). -/
def tokenize (src : List Char) : Option (Except KbError (List Token)) :=
  match wordsTrieO with
  | none => none
  | some wt => tokenizeGo wt .Start [] [] src

/-- Rust struct `Chord` (a list of key labels). -/
structure Chord where
  keys : List String
deriving DecidableEq

/-- Rust struct `Sequence` (a list of chords). -/
structure Sequence where
  chords : List Chord
deriving DecidableEq

/-- The `Display` impl for `Chord`: keys joined by `-`. -/
def chordDisplay (c : Chord) : String :=
  String.intercalate "-" c.keys

/-- Rust `Chord::is_ctrl`. -/
def Chord.is_ctrl (key : String) : Bool :=
  key = "Ctrl"

/-- Rust `char::to_digit(36).is_some()` (the body of `char::is_digit(10+26)`),
with `u32` wrapping subtraction and saturating addition made explicit. -/
def charIsDigit36 (c : Char) : Bool :=
  let n := c.toNat
  let d1 := (n + (2 ^ 32 - 48)) % 2 ^ 32
  if d1 < 10 then true
  else
    let d2 := min ((((n ||| 32) + (2 ^ 32 - 97)) % 2 ^ 32) + 10) (2 ^ 32 - 1)
    d2 < 36

/-- Rust `Chord::is_sym`: "Space", or a single-byte key whose character is a
base-36 digit (note: `is_digit(36)` accepts `0-9`, `a-z` and also `A-Z`).
`key.len()` in Rust is the UTF-8 byte length. -/
def Chord.is_sym (key : String) : Bool :=
  if key = "Space" then true
  else if key.utf8ByteSize ≠ 1 then false
  else charIsDigit36 (key.data.headD 'A')

/-- Rust `Chord::is_key`. -/
def Chord.is_key (key : String) : Bool :=
  Chord.is_ctrl key || Chord.is_sym key

/-- Rust `Chord::check_valid`: every key must be a valid key label; a
singleton must not be `Ctrl`; a pair must be `Ctrl` followed by a
non-`Ctrl` key; other lengths are invalid. -/
def Chord.check_valid (c : Chord) : Except KbError Unit :=
  if !(c.keys.all Chord.is_key) then .error (.invalidKey (chordDisplay c))
  else if c.keys.length = 1 then
    if Chord.is_ctrl (c.keys.headD "") then .error (.ctrlAlone (chordDisplay c))
    else .ok ()
  else if c.keys.length = 2 then
    if !(Chord.is_ctrl (c.keys.headD "")) then .error (.badModKey (chordDisplay c))
    else if Chord.is_ctrl (c.keys.getD 1 "") then .error (.ctrlRepeated (chordDisplay c))
    else .ok ()
  else .error (.invalidChordLen (chordDisplay c))

/-- The `CONTROL_CODES` table, reproduced entry for entry in source order. -/
def CONTROL_CODES : List (String × Nat) :=
  [("Ctrl-Space", 0),
   ("Ctrl-a", 1),
   ("Ctrl-b", 2),
   ("Ctrl-c", 3),
   ("Ctrl-d", 4),
   ("Ctrl-e", 5),
   ("Ctrl-f", 6),
   ("Ctrl-g", 7),
   ("Ctrl-h", 8),
   ("Ctrl-i", 9),
   ("Ctrl-j", 10),
   ("Ctrl-k", 11),
   ("Ctrl-l", 12),
   ("Ctrl-m", 13),
   ("Ctrl-n", 14),
   ("Ctrl-o", 15),
   ("Ctrl-p", 16),
   ("Ctrl-q", 17),
   ("Ctrl-r", 18),
   ("Ctrl-s", 19),
   ("Ctrl-t", 20),
   ("Ctrl-u", 21),
   ("Ctrl-v", 22),
   ("Ctrl-w", 23),
   ("Ctrl-y", 24),
   ("Ctrl-x", 25),
   ("Ctrl-z", 26),
   ("Ctrl-@", 0),
   ("Ctrl-2", 0),
   ("Ctrl-[", 27),
   ("Ctrl-3", 27),
   ("Ctrl-\\", 28),
   ("Ctrl-4", 28),
   ("Ctrl-]", 29),
   ("Ctrl-5", 29),
   ("Ctrl-^", 30),
   ("Ctrl-6", 30),
   ("Ctrl-_", 31),
   ("Ctrl-7", 31),
   ("Ctrl-?", 127),
   ("Ctrl-8", 127),
   ("Ctrl-0", 127)]

/-- The linear scan over `CONTROL_CODES` in `Chord::key_code`
(first matching entry wins). -/
def scanCodes (s : String) : List (String × Nat) → Option Nat
  | [] => none
  | (k, v) :: rest => if s = k then some v else scanCodes s rest

/-- Rust `Chord::key_code`: validate, then resolve a singleton symbol chord
to its character code (Space is 0x20), or a two-key chord through the
`CONTROL_CODES` table keyed by its `Ctrl-sym` display form. -/
def Chord.key_code (c : Chord) : Except KbError Nat :=
  match c.check_valid with
  | .error e => .error e
  | .ok _ =>
    if c.keys.length = 1 then
      if Chord.is_sym (c.keys.headD "") then
        if c.keys.headD "" = "Space" then .ok 32
        else .ok (((c.keys.headD "").data.headD 'A').toNat % 256)
      else .error (.unknownKeyCode (chordDisplay c))
    else if c.keys.length = 2 then
      match scanCodes (chordDisplay c) CONTROL_CODES with
      | some code => .ok code
      | none => .error (.unknownKeyCode (chordDisplay c))
    else .error (.unknownKeyCode (chordDisplay c))

/-- The loop of `parse`: accumulate keys into chords; a dash continues the
current chord; a dash in dash position is a parse error. -/
def parseLoop : List Token → List Chord → List String → Bool →
    Except KbError (List Chord)
  | [], chords, keys, _ =>
    if keys.length > 0 then .ok (chords ++ [⟨keys⟩]) else .ok chords
  | Token.Key k :: rest, chords, keys, saw_dash =>
    if saw_dash then parseLoop rest chords (keys ++ [k]) false
    else parseLoop rest (chords ++ [⟨keys⟩]) [k] false
  | Token.Dash :: rest, chords, keys, saw_dash =>
    if saw_dash then .error .unexpectedDash
    else parseLoop rest chords keys true

/-- Rust `parse`: `saw_dash` starts out true, so the first token must be a
key. -/
def parse (tokens : List Token) : Except KbError Sequence :=
  match parseLoop tokens [] [] true with
  | .error e => .error e
  | .ok chords => .ok ⟨chords⟩

/-- The mutable compilation state inside `Bindings::new`: the two tries under
construction, the chord→atom table (`chord_atom_tab`) and the atom counter
(`chord_atom_counter`). -/
structure NewSt where
  chords : Trie Nat (List (Option Nat))
  sequences : Trie Action (List (Option Nat))
  atomTab : List (Chord × Nat)
  counter : Nat
deriving DecidableEq

/-- The per-chord body of the compilation loop in `Bindings::new`: resolve
the key code (which validates the chord), look up or allocate the chord
atom, fail once the counter reaches `u8::MAX`, and insert the key-code
path into the chords trie. -/
def procChords : NewSt → List Chord → Option (Except KbError NewSt)
  | st, [] => some (.ok st)
  | st, ch :: rest =>
    match ch.key_code with
    | .error e => some (.error e)
    | .ok code =>
      match assocGet st.atomTab ch with
      | some atom =>
        -- the chord already has an atom: the counter does not move
        if 255 ≤ st.counter then some (.error .chordLimit)
        else
          match Trie.insert vecTT st.chords [code] atom with
          | none => none
          | some chords2 => procChords { st with chords := chords2 } rest
      | none =>
        -- `or_insert_with` allocates a fresh atom and bumps the counter
        if 255 ≤ st.counter + 1 then some (.error .chordLimit)
        else
          match Trie.insert vecTT st.chords [code] st.counter with
          | none => none
          | some chords2 =>
            procChords
              { st with
                chords := chords2
                atomTab := st.atomTab ++ [(ch, st.counter)]
                counter := st.counter + 1 }
              rest

/-- One iteration of the binding loop in `Bindings::new`: tokenize, parse,
process every chord, then insert the atom sequence into the sequences
trie (`chord_atom_tab.get(chord).unwrap()` is the `mapM` lookup). -/
def procBinding (st : NewSt) (src : String) (action : Action) :
    Option (Except KbError NewSt) :=
  match tokenize src.data with
  | none => none
  | some (.error e) => some (.error e)
  | some (.ok tokens) =>
    match parse tokens with
    | .error e => some (.error e)
    | .ok seq =>
      match procChords st seq.chords with
      | none => none
      | some (.error e) => some (.error e)
      | some (.ok st2) =>
        match seq.chords.mapM (fun ch => assocGet st2.atomTab ch) with
        | none => none
        | some atoms =>
          match Trie.insert vecTT st2.sequences atoms action with
          | none => none
          | some seqs2 => some (.ok { st2 with sequences := seqs2 })

/-- The binding loop of `Bindings::new`. -/
def newGo : NewSt → List (String × Action) → Option (Except KbError NewSt)
  | st, [] => some (.ok st)
  | st, (src, action) :: rest =>
    match procBinding st src action with
    | none => none
    | some (.error e) => some (.error e)
    | some (.ok st2) => newGo st2 rest

/-- The initial compilation state of `Bindings::new`. -/
def initSt : NewSt :=
  ⟨Trie.new vecTT, Trie.new vecTT, [], 0⟩

/-- Rust struct `Bindings`. -/
structure Bindings where
  chords : Trie Nat (List (Option Nat))
  chords_cursor : TrieCursor
  sequences : Trie Action (List (Option Nat))
  sequences_cursor : TrieCursor
deriving DecidableEq

/-- Rust `Bindings::new`: compile the binding/action pairs into the two
tries; both cursors start at `Start`. -/
def Bindings.new (bs : List (String × Action)) : Option (Except KbError Bindings) :=
  match newGo initSt bs with
  | none => none
  | some (.error e) => some (.error e)
  | some (.ok st) => some (.ok ⟨st.chords, .Start, st.sequences, .Start⟩)

/-- Rust `Bindings::transition`: advance the chords cursor by the byte; on a
completed chord feed its atom to the sequences trie and emit the action of
a completed sequence; otherwise keep or reset state as the source does. -/
def Bindings.transition (b : Bindings) (byte : Nat) :
    Option (Option Action × Bindings) :=
  match Trie.advance vecTT b.chords b.chords_cursor byte with
  | none => none
  | some cc =>
    match Trie.getC vecTT b.chords cc with
    | none => none
    | some (some chord_atom) =>
      match Trie.advance vecTT b.sequences b.sequences_cursor chord_atom with
      | none => none
      | some sc =>
        match sc with
        | .Match _ true =>
          some (none, { b with chords_cursor := .Start, sequences_cursor := sc })
        | .Match i false =>
          match Trie.getC vecTT b.sequences (.Match i false) with
          | none => none
          | some act =>
            some (act, { b with chords_cursor := .Start, sequences_cursor := .Start })
        | _ =>
          some (none, { b with chords_cursor := .Start, sequences_cursor := .Start })
    | some none =>
      match cc with
      | .NoMatch =>
        some (none, { b with chords_cursor := .Start, sequences_cursor := .Start })
      | _ => some (none, { b with chords_cursor := cc })

/-- Feed a byte list through `transition`, collecting the emitted outputs;
`none` if any step panics. -/
def runOutputs : Bindings → List Nat → Option (List (Option Action))
  | _, [] => some []
  | b, byte :: rest =>
    match b.transition byte with
    | none => none
    | some (out, b2) =>
      match runOutputs b2 rest with
      | none => none
      | some outs => some (out :: outs)

/-- Compile a binding set and run a byte list through the resulting engine. -/
def bindRun (bs : List (String × Action)) (bytes : List Nat) :
    Option (Except KbError (List (Option Action))) :=
  match Bindings.new bs with
  | none => none
  | some (.error e) => some (.error e)
  | some (.ok b) =>
    match runOutputs b bytes with
    | none => none
    | some outs => some (.ok outs)

/-- The `Bindings` value produced by `Bindings::new` on the empty binding
set: two one-node tries, both cursors at `Start`. -/
def emptyBindings : Bindings :=
  ⟨Trie.new vecTT, .Start, Trie.new vecTT, .Start⟩

/-- The `Bindings` value produced by `Bindings::new` on the single binding
`("", Detach)`: the chords trie is untouched and the action sits at the
root (node 0) of the sequences trie. -/
def nullBindings : Bindings :=
  ⟨Trie.new vecTT, .Start,
   ⟨[⟨some .Detach, List.replicate 255 none⟩]⟩, .Start⟩

/-- The chords trie of a `Bindings` instance always keeps a root node and
255-slot symbol tables: the well-formedness facts `transition` relies on. -/
def TabsOK {V : Type} (t : Trie V (List (Option Nat))) : Prop :=
  t.nodes ≠ [] ∧ ∀ nd ∈ t.nodes, nd.tab.length = 255

/-- The symbol universe named by the spec claim: "Space", a lowercase
letter, or a digit (37 labels). -/
def claimSyms : List String :=
  ["Space",
   "a", "b", "c", "d", "e", "f", "g", "h", "i", "j", "k", "l", "m",
   "n", "o", "p", "q", "r", "s", "t", "u", "v", "w", "x", "y", "z",
   "0", "1", "2", "3", "4", "5", "6", "7", "8", "9"]

/-- The symbol universe the code's `is_sym` actually accepts, spelled out:
"Space", or one ASCII character that is a digit, an uppercase letter, or a
lowercase letter (`char::is_digit(36)` is case-insensitive). -/
def isSymSpec (s : String) : Prop :=
  s = "Space" ∨ ∃ c : Char, s = String.mk [c] ∧
    ((48 ≤ c.toNat ∧ c.toNat ≤ 57) ∨ (65 ≤ c.toNat ∧ c.toNat ≤ 90) ∨
      (97 ≤ c.toNat ∧ c.toNat ≤ 122))

/-- The two valid chord shapes, over the code's actual symbol universe. -/
def validShapeSpec (ks : List String) : Prop :=
  (∃ s, ks = [s] ∧ isSymSpec s) ∨ (∃ s, ks = ["Ctrl", s] ∧ isSymSpec s)

/-- The concrete keyword trie built by `Lexer::new` (root, the `Ctrl` chain
through nodes 1-4, and the `Space` chain through nodes 5-9). -/
def wtVal : Trie Unit (List (Char × Nat)) :=
  ⟨[⟨none, [('S', 5), ('C', 1)]⟩,
    ⟨none, [('t', 2)]⟩,
    ⟨none, [('r', 3)]⟩,
    ⟨none, [('l', 4)]⟩,
    ⟨some (), []⟩,
    ⟨none, [('p', 6)]⟩,
    ⟨none, [('a', 7)]⟩,
    ⟨none, [('c', 8)]⟩,
    ⟨none, [('e', 9)]⟩,
    ⟨some (), []⟩]⟩

/-- The labels a `Key` token produced by the lexer can carry: a full keyword
or one lowercase letter. -/
def KeyOK (s : String) : Prop :=
  s = "Ctrl" ∨ s = "Space" ∨ ∃ c, s = String.mk [c] ∧ 'a' ≤ c ∧ c ≤ 'z'

/-- Well-formedness of a lexer token. -/
def TokOK : Token → Prop
  | .Dash => True
  | .Key s => KeyOK s

/-- The reachable states of the lexer's keyword-matching loop: the cursor
sits at a proper prefix of `Ctrl` or `Space` and the buffer holds exactly
that prefix. -/
def StateOK (cur : TrieCursor) (wc : List Char) : Prop :=
  (cur = .Start ∧ wc = []) ∨
  (cur = .Match 1 true ∧ wc = ['C']) ∨
  (cur = .Match 2 true ∧ wc = ['C', 't']) ∨
  (cur = .Match 3 true ∧ wc = ['C', 't', 'r']) ∨
  (cur = .Match 5 true ∧ wc = ['S']) ∨
  (cur = .Match 6 true ∧ wc = ['S', 'p']) ∨
  (cur = .Match 7 true ∧ wc = ['S', 'p', 'a']) ∨
  (cur = .Match 8 true ∧ wc = ['S', 'p', 'a', 'c'])

/-- The lowercase letters. -/
def lowercaseChars : List Char :=
  (List.range 26).map (fun k => Char.ofNat (97 + k))

/-- The symbol labels a lexed, validated chord can use ("Space" or one
lowercase letter): 27 labels. -/
def lexSyms : List String :=
  "Space" :: lowercaseChars.map (fun c => String.mk [c])

/-- Every chord that can survive lexing, parsing and validation: 54 chords. -/
def chordsAll : List Chord :=
  lexSyms.map (fun s => ⟨[s]⟩) ++ lexSyms.map (fun s => ⟨["Ctrl", s]⟩)

/-- The compile-loop invariant of `Bindings::new`: the chord→atom table has
pairwise-distinct chord keys drawn from the 54 reachable chords, and the
counter equals the table size. -/
def AtomTabOK (st : NewSt) : Prop :=
  (st.atomTab.map Prod.fst).Nodup ∧
  (∀ ch ∈ st.atomTab.map Prod.fst, ch ∈ chordsAll) ∧
  st.counter = st.atomTab.length

/-- The child entry of node `i` under symbol `s` in a hash-backed trie. -/
def entryH {σ V : Type} [DecidableEq σ] (t : Trie V (List (σ × Nat)))
    (i : Nat) (s : σ) : Option Nat :=
  match t.nodes[i]? with
  | some nd => assocGet nd.tab s
  | none => none

/-- Follow entries from node `i` along a symbol list. -/
def hwalk {σ V : Type} [DecidableEq σ] (t : Trie V (List (σ × Nat)))
    (i : Nat) : List σ → Option Nat
  | [] => some i
  | s :: rest =>
    match entryH t i s with
    | none => none
    | some j => hwalk t j rest

/-- The shape invariant of a hash-backed trie built by `insert`s from `new`,
with `P` the (ghost) list of root paths: `P[i]` is the unique symbol path
from the root to node `i`. -/
structure InvP {σ V : Type} [DecidableEq σ] (t : Trie V (List (σ × Nat)))
    (P : List (List σ)) : Prop where
  len_eq : P.length = t.nodes.length
  root : P[0]? = some []
  nodup : P.Nodup
  entries : ∀ i s j, entryH t i s = some j →
    ∃ pi, P[i]? = some pi ∧ P[j]? = some (pi ++ [s])
  parent : ∀ j pj, P[j]? = some pj → 0 < j → ∃ i s, entryH t i s = some j
  walk : ∀ j pj, P[j]? = some pj → hwalk t 0 pj = some j

/-- Some node on path `s` carries a terminal value. -/
def ValuedAt {σ V : Type} [DecidableEq σ] (t : Trie V (List (σ × Nat)))
    (P : List (List σ)) (s : List σ) : Prop :=
  ∃ (j : Nat) (nd : TrieNode V (List (σ × Nat))),
    P[j]? = some s ∧ t.nodes[j]? = some nd ∧ nd.value.isSome = true

/-- The one-step arena extension performed by `insertFrom` when node `cur`
has no entry for `s0`: push a fresh node and point `cur`'s table at it. -/
def extTrie {σ V : Type} [DecidableEq σ] (t : Trie V (List (σ × Nat)))
    (cur : Nat) (node : TrieNode V (List (σ × Nat))) (s0 : σ) :
    Trie V (List (σ × Nat)) :=
  Trie.mk ((t.nodes ++ [TrieNode.mk none []]).set cur
    (TrieNode.mk node.value ((s0, t.nodes.length) :: node.tab)))

/-- Build a character trie by inserting the given keys, in order, into a
fresh trie (the setting of the source's `test_trie_contains`). -/
def buildTrie (ws : List (List Char)) : Option (Trie Unit (List (Char × Nat))) :=
  ws.foldl
    (fun acc w =>
      match acc with
      | none => none
      | some t => Trie.insert (hashTT Char) t w ())
    (some (Trie.new (hashTT Char)))

set_option maxRecDepth 16000

theorem tabsOK_new {V : Type} : TabsOK (Trie.new vecTT : Trie V (List (Option Nat))) := by
  constructor
  · simp [Trie.new]
  · intro nd hnd
    simp [Trie.new, vecTT] at hnd
    simp [hnd, vecTT]

theorem tabsOK_insertFrom {V : Type} :
    ∀ (syms : List Nat) (t : Trie V (List (Option Nat))) (cur : Nat)
      (res : Trie V (List (Option Nat)) × Nat),
      TabsOK t → Trie.insertFrom vecTT t cur syms = some res → TabsOK res.1 := by
  intro syms
  induction syms with
  | nil =>
    intro t cur res ht h
    simp only [Trie.insertFrom] at h
    cases h
    exact ht
  | cons sym rest ih =>
    intro t cur res ht h
    simp only [Trie.insertFrom] at h
    split at h
    · exact absurd h (by simp)
    · rename_i node hnode
      split at h
      · exact absurd h (by simp)
      · -- entry exists: recurse on the same trie
        exact ih t _ res ht h
      · -- entry absent: create a new node, patch the table
        rename_i hget
        split at h
        · exact absurd h (by simp)
        · rename_i tab2 hset
          refine ih _ _ res ?_ h
          have hnodemem : node ∈ t.nodes := List.getElem?_mem hnode
          have htab : node.tab.length = 255 := ht.2 node hnodemem
          simp only [vecTT] at hset
          split at hset
          · cases hset
            constructor
            · intro hcontra
              have := congrArg List.length hcontra
              simp at this
            · intro nd hnd
              rcases List.mem_or_eq_of_mem_set hnd with hmem | rfl
              · rcases List.mem_append.mp hmem with hmem2 | hmem2
                · exact ht.2 nd hmem2
                · simp at hmem2
                  simp [hmem2, vecTT]
              · simpa using htab
          · exact absurd hset (by simp)

theorem tabsOK_insert {V : Type} (t t2 : Trie V (List (Option Nat)))
    (syms : List Nat) (v : V) (ht : TabsOK t)
    (h : Trie.insert vecTT t syms v = some t2) : TabsOK t2 := by
  simp only [Trie.insert] at h
  split at h
  · exact absurd h (by simp)
  · rename_i t1 cur hfrom
    have hp := tabsOK_insertFrom syms t 0 (t1, cur) ht hfrom
    split at h
    · exact absurd h (by simp)
    · rename_i node hnode
      cases h
      constructor
      · intro hcontra
        have := congrArg List.length hcontra
        simp at this
        exact hp.1 this
      · intro nd hnd
        rcases List.mem_or_eq_of_mem_set hnd with hmem | rfl
        · exact hp.2 nd hmem
        · exact hp.2 node (List.getElem?_mem hnode)

theorem tabsOK_procChords :
    ∀ (chords : List Chord) (st st2 : NewSt),
      TabsOK st.chords → procChords st chords = some (.ok st2) → TabsOK st2.chords := by
  intro chords
  induction chords with
  | nil =>
    intro st st2 ht h
    simp only [procChords] at h
    cases h
    exact ht
  | cons ch rest ih =>
    intro st st2 ht h
    simp only [procChords] at h
    split at h
    · exact absurd h (by simp)
    · split at h
      · split at h
        · exact absurd h (by simp)
        · split at h
          · exact absurd h (by simp)
          · rename_i chords2 hins
            exact ih _ st2 (tabsOK_insert _ _ _ _ ht hins) h
      · split at h
        · exact absurd h (by simp)
        · split at h
          · exact absurd h (by simp)
          · rename_i chords2 hins
            exact ih _ st2 (tabsOK_insert _ _ _ _ ht hins) h

theorem tabsOK_procBinding (st st2 : NewSt) (src : String) (action : Action)
    (ht : TabsOK st.chords) (h : procBinding st src action = some (.ok st2)) :
    TabsOK st2.chords := by
  simp only [procBinding] at h
  split at h
  · exact absurd h (by simp)
  · exact absurd h (by simp)
  · split at h
    · exact absurd h (by simp)
    · split at h
      · exact absurd h (by simp)
      · exact absurd h (by simp)
      · rename_i st1 hproc
        have h1 := tabsOK_procChords _ st st1 ht hproc
        split at h
        · exact absurd h (by simp)
        · split at h
          · exact absurd h (by simp)
          · cases h
            exact h1

theorem tabsOK_newGo :
    ∀ (bs : List (String × Action)) (st st2 : NewSt),
      TabsOK st.chords → newGo st bs = some (.ok st2) → TabsOK st2.chords := by
  intro bs
  induction bs with
  | nil =>
    intro st st2 ht h
    simp only [newGo] at h
    cases h
    exact ht
  | cons b rest ih =>
    intro st st2 ht h
    simp only [newGo] at h
    split at h
    · exact absurd h (by simp)
    · exact absurd h (by simp)
    · rename_i st1 hbind
      exact ih _ st2 (tabsOK_procBinding st st1 _ _ ht hbind) h

/-- C1: the spec says `transition` never fails on any byte 0..=255, but the
dense symbol table has only 255 slots (`vec![None; u8::MAX as usize]`), so
`transition(255)` indexes out of bounds and panics on every successfully
constructed `Bindings` instance. -/
theorem c1_transition_255_panics (bs : List (String × Action)) (B : Bindings)
    (h : Bindings.new bs = some (.ok B)) : B.transition 255 = none := by
  simp only [Bindings.new] at h
  split at h
  · exact absurd h (by simp)
  · exact absurd h (by simp)
  · rename_i st hgo
    have ht : TabsOK st.chords := tabsOK_newGo bs initSt st tabsOK_new hgo
    cases h
    obtain ⟨hd, tl, hnodes⟩ := List.exists_cons_of_ne_nil ht.1
    have hhd : st.chords.nodes[0]? = some hd := by rw [hnodes]; simp
    have htab : hd.tab.length = 255 := ht.2 hd (by rw [hnodes]; exact List.mem_cons_self hd tl)
    have hadv : Trie.advance vecTT st.chords TrieCursor.Start 255 = none := by
      simp only [Trie.advance, Trie.advanceAt, hhd]
      have : vecTT.getT hd.tab 255 = none := by
        simp only [vecTT]
        exact List.getElem?_eq_none (le_of_eq htab)
      simp [this]
    simp only [Bindings.transition, hadv]

/-- Closed witness for C1: the empty binding set compiles, and feeding byte
255 to the result panics. -/
theorem c1_witness : Bindings.transition emptyBindings 255 = none :=
  c1_transition_255_panics [] emptyBindings rfl

/-- C2: the control-code table maps `Ctrl-x` to 25 and `Ctrl-y` to 24 — the
two letters are swapped relative to the claimed in-order mapping (x is
letter 24, y is letter 25); the neighbouring letters match the claim. -/
theorem c2_ctrl_x_y_swapped :
    Chord.key_code ⟨["Ctrl", "x"]⟩ = .ok 25 ∧
    Chord.key_code ⟨["Ctrl", "y"]⟩ = .ok 24 ∧
    Chord.key_code ⟨["Ctrl", "w"]⟩ = .ok 23 ∧
    Chord.key_code ⟨["Ctrl", "z"]⟩ = .ok 26 ∧
    Chord.key_code ⟨["Ctrl", "a"]⟩ = .ok 1 :=
  ⟨rfl, rfl, rfl, rfl, rfl⟩

/-- C3: the lexer's replay branch accepts only `-` and `a..=z`, so a digit
outside a keyword is rejected with an "unexpected char" lex error rather
than being emitted as a one-character `Key` token. -/
theorem c3_digit_lex_error :
    tokenize "2".data = some (.error (.unexpectedChar '2')) ∧
    tokenize "Ctrl-2".data = some (.error (.unexpectedChar '2')) :=
  ⟨rfl, rfl⟩

/-- C6: with the single binding `Ctrl-Space Ctrl-d ↦ Detach`, bytes `[0, 4]`
emit `Detach` on the second byte; `[0, 20, 4]` emit nothing anywhere; and
`[0, 4, 20]` emit `Detach` on the second byte and nothing on the third. -/
theorem c6_two_chord_scenarios :
    bindRun [("Ctrl-Space Ctrl-d", Action.Detach)] [0, 4] =
      some (.ok [none, some .Detach]) ∧
    bindRun [("Ctrl-Space Ctrl-d", Action.Detach)] [0, 20, 4] =
      some (.ok [none, none, none]) ∧
    bindRun [("Ctrl-Space Ctrl-d", Action.Detach)] [0, 4, 20] =
      some (.ok [none, some .Detach, none]) :=
  ⟨rfl, rfl, rfl⟩

/-- C7: with the single binding `a ↦ Detach`, the byte sequence
`['a','a','x','a','b']` emits nothing on the final byte (full output
trace shown). -/
theorem c7_trailing_reset_scenario :
    bindRun [("a", Action.Detach)] [97, 97, 120, 97, 98] =
      some (.ok [some .Detach, some .Detach, none, some .Detach, none]) :=
  rfl

theorem null_transition (byte : Nat) :
    nullBindings.transition byte = none ∨
    nullBindings.transition byte = some (none, nullBindings) := by
  by_cases h : byte < 255
  · right
    have hadv : Trie.advance vecTT nullBindings.chords nullBindings.chords_cursor
        byte = some .NoMatch := by
      simp only [nullBindings, Trie.advance, Trie.advanceAt, Trie.new, vecTT,
        List.getElem?_cons_zero, List.getElem?_replicate]
      rw [if_pos h]
    simp only [Bindings.transition, hadv, Trie.getC]
    rfl
  · left
    have hadv : Trie.advance vecTT nullBindings.chords nullBindings.chords_cursor
        byte = none := by
      simp only [nullBindings, Trie.advance, Trie.advanceAt, Trie.new, vecTT,
        List.getElem?_cons_zero, List.getElem?_replicate]
      rw [if_neg h]
    simp only [Bindings.transition, hadv]

theorem null_runOutputs :
    ∀ (bytes : List Nat) (outs : List (Option Action)),
      runOutputs nullBindings bytes = some outs → outs.all Option.isNone = true := by
  intro bytes
  induction bytes with
  | nil =>
    intro outs h
    simp only [runOutputs] at h
    cases h
    rfl
  | cons b rest ih =>
    intro outs h
    rcases null_transition b with ht | ht
    · simp only [runOutputs, ht] at h
      exact absurd h (by simp)
    · simp only [runOutputs, ht] at h
      split at h
      · exact absurd h (by simp)
      · rename_i outs2 houts
        cases h
        simpa using ih outs2 houts

/-- C10: the empty binding string (and an all-whitespace one) compiles
without error; its action is stored at the root (node 0) of the sequences
trie; and no byte stream ever makes `transition` emit an action from the
resulting engine. -/
theorem c10_empty_binding_inert :
    (Bindings.new [("", Action.Detach)] = some (.ok nullBindings) ∧
     Bindings.new [(" \t ", Action.Detach)] = some (.ok nullBindings) ∧
     nullBindings.sequences.nodes[0]? =
       some ⟨some Action.Detach, List.replicate 255 none⟩) ∧
    ∀ (bytes : List Nat) (outs : List (Option Action)),
      runOutputs nullBindings bytes = some outs → outs.all Option.isNone = true :=
  ⟨⟨rfl, rfl, rfl⟩, null_runOutputs⟩

/-- Closed witness for C10: one transition step on byte 97 emits nothing. -/
theorem c10_witness : List.all [(none : Option Action)] Option.isNone = true :=
  c10_empty_binding_inert.2 [97] [none] rfl

theorem advanceAt_result_shape {σ V T : Type} (tt : TrieTab σ T) (t : Trie V T)
    (i : Nat) (sym : σ) (r : TrieCursor)
    (h : Trie.advanceAt tt t i sym = some r) :
    r = TrieCursor.NoMatch ∨ ∃ j p, r = TrieCursor.Match j p := by
  simp only [Trie.advanceAt] at h
  split at h
  · exact absurd h (by simp)
  · split at h
    · exact absurd h (by simp)
    · cases h
      exact Or.inl rfl
    · split at h
      · exact absurd h (by simp)
      · rename_i j child hchild
        cases h
        exact Or.inr ⟨_, _, rfl⟩

theorem advance_result_shape {σ V T : Type} (tt : TrieTab σ T) (t : Trie V T)
    (cursor : TrieCursor) (sym : σ) (r : TrieCursor)
    (h : Trie.advance tt t cursor sym = some r) :
    r = TrieCursor.NoMatch ∨ ∃ j p, r = TrieCursor.Match j p := by
  cases cursor with
  | NoMatch =>
    simp only [Trie.advance] at h
    cases h
    exact Or.inl rfl
  | Start => exact advanceAt_result_shape tt t 0 sym r h
  | Match idx pf => exact advanceAt_result_shape tt t idx sym r h

theorem replayAll_error :
    ∀ (cs : List Char) (e : KbError), replayAll cs = .error e →
      ∃ c, e = KbError.unexpectedChar c := by
  intro cs
  induction cs with
  | nil =>
    intro e h
    simp [replayAll] at h
  | cons c rest ih =>
    intro e h
    simp only [replayAll] at h
    split at h
    · cases hr : replayAll rest with
      | ok ts => rw [hr] at h; simp [Except.map] at h
      | error e2 =>
        rw [hr] at h
        simp only [Except.map] at h
        cases h
        exact ih _ hr
    · split at h
      · cases hr : replayAll rest with
        | ok ts => rw [hr] at h; simp [Except.map] at h
        | error e2 =>
          rw [hr] at h
          simp only [Except.map] at h
          cases h
          exact ih _ hr
      · cases h
        exact ⟨c, rfl⟩

theorem tokenizeGo_shape (wt : Trie Unit (List (Char × Nat))) :
    ∀ (src : List Char) (cursor : TrieCursor) (wc : List Char)
      (toks : List Token) (res : Except KbError (List Token)),
      tokenizeGo wt cursor wc toks src = some res →
      (∃ ts, res = Except.ok ts) ∨
        ∃ c, res = Except.error (KbError.unexpectedChar c) := by
  intro src
  induction src with
  | nil =>
    intro cursor wc toks res h
    simp only [tokenizeGo] at h
    cases h
    exact Or.inl ⟨toks, rfl⟩
  | cons c rest ih =>
    intro cursor wc toks res h
    simp only [tokenizeGo] at h
    split at h
    · exact ih _ _ _ _ h
    · split at h
      · exact absurd h (by simp)
      · rename_i hadv
        rcases advance_result_shape _ _ _ _ _ hadv with h1 | ⟨j, p, h1⟩ <;> simp at h1
      · split at h
        · rename_i e herr
          cases h
          obtain ⟨c2, rfl⟩ := replayAll_error _ _ herr
          exact Or.inr ⟨c2, rfl⟩
        · exact ih _ _ _ _ h
      · split at h
        · exact ih _ _ _ _ h
        · exact ih _ _ _ _ h

theorem tokenize_shape (src : List Char) (res : Except KbError (List Token))
    (h : tokenize src = some res) :
    (∃ ts, res = Except.ok ts) ∨
      ∃ c, res = Except.error (KbError.unexpectedChar c) := by
  simp only [tokenize] at h
  split at h
  · exact absurd h (by simp)
  · exact tokenizeGo_shape _ src _ _ _ res h

/-- C9: `Trie::advance` never returns the `Start` cursor (any returned value
is `Match` or `NoMatch`); consequently `Lexer::tokenize` can only succeed
or fail with an "unexpected char" error — its "internal error: trie bug"
branch is unreachable. -/
theorem c9_advance_never_start :
    (∀ (σ V T : Type) (tt : TrieTab σ T) (t : Trie V T) (cursor : TrieCursor)
       (sym : σ) (r : TrieCursor), Trie.advance tt t cursor sym = some r →
       r = TrieCursor.NoMatch ∨ ∃ j p, r = TrieCursor.Match j p) ∧
    (∀ (src : List Char) (res : Except KbError (List Token)),
       tokenize src = some res →
       (∃ ts, res = Except.ok ts) ∨
         ∃ c, res = Except.error (KbError.unexpectedChar c)) :=
  ⟨fun _ _ _ tt t cursor sym r h => advance_result_shape tt t cursor sym r h,
   tokenize_shape⟩

/-- Closed witness for C9, applying both conjuncts at concrete inputs. -/
theorem c9_witness :
    ((TrieCursor.NoMatch = TrieCursor.NoMatch ∨
        ∃ j p, TrieCursor.NoMatch = TrieCursor.Match j p) ∧
     ((∃ ts, (Except.ok [Token.Key "a"] : Except KbError (List Token)) =
         Except.ok ts) ∨
       ∃ c, (Except.ok [Token.Key "a"] : Except KbError (List Token)) =
         Except.error (KbError.unexpectedChar c))) :=
  ⟨c9_advance_never_start.1 Nat Nat (List (Option Nat)) vecTT (Trie.new vecTT)
      TrieCursor.Start 0 TrieCursor.NoMatch rfl,
   c9_advance_never_start.2 "a".data (Except.ok [Token.Key "a"]) rfl⟩

theorem nat_le_lor (a b : Nat) : a ≤ a ||| b := by
  have habs : a &&& (a ||| b) = a := by
    apply Nat.eq_of_testBit_eq
    intro i
    rw [Nat.testBit_and, Nat.testBit_lor]
    cases a.testBit i <;> simp
  calc a = a &&& (a ||| b) := habs.symm
    _ ≤ a ||| b := Nat.and_le_right

theorem lor32_range (n : Nat) :
    (97 ≤ n ||| 32 ∧ n ||| 32 ≤ 122) ↔
      ((97 ≤ n ∧ n ≤ 122) ∨ (65 ≤ n ∧ n ≤ 90)) := by
  by_cases hn : n < 128
  · interval_cases n <;> decide
  · have h1 : 128 ≤ n ||| 32 := le_trans (by omega) (nat_le_lor n 32)
    constructor
    · intro h2
      omega
    · intro h2
      omega

theorem charIsDigit36_iff (c : Char) :
    charIsDigit36 c = true ↔
      ((48 ≤ c.toNat ∧ c.toNat ≤ 57) ∨ (65 ≤ c.toNat ∧ c.toNat ≤ 90) ∨
        (97 ≤ c.toNat ∧ c.toNat ≤ 122)) := by
  have h32 : c.toNat < 4294967296 := UInt32.toNat_lt_size c.val
  have hm32 : c.toNat ||| 32 < 4294967296 :=
    Nat.or_lt_two_pow (n := 32) h32 (by norm_num)
  have hrange := lor32_range c.toNat
  simp only [charIsDigit36]
  by_cases h1 : (c.toNat + (2 ^ 32 - 48)) % 2 ^ 32 < 10
  · simp only [h1, if_true]
    simp only [true_iff]
    left
    omega
  · simp only [h1, if_false]
    rw [decide_eq_true_iff]
    constructor
    · intro h2
      right
      have : 97 ≤ c.toNat ||| 32 ∧ c.toNat ||| 32 ≤ 122 := by omega
      rcases hrange.mp this with h3 | h3
      · right; omega
      · left; omega
    · intro h2
      rcases h2 with h3 | h3 | h3
      · omega
      · have := hrange.mpr (Or.inr h3)
        omega
      · have := hrange.mpr (Or.inl h3)
        omega

theorem utf8ByteSizeGo_ge (l : List Char) :
    l.length ≤ String.utf8ByteSize.go l := by
  induction l with
  | nil => simp [String.utf8ByteSize.go]
  | cons c cs ih =>
    have := Char.utf8Size_pos c
    simp only [String.utf8ByteSize.go, List.length_cons]
    omega

theorem byteSize_one (s : String) (h : s.utf8ByteSize = 1) :
    ∃ c, s.data = [c] := by
  obtain ⟨l⟩ := s
  simp only [String.utf8ByteSize] at h
  match l, h with
  | [], h => exact absurd h (by simp [String.utf8ByteSize.go])
  | [c], _ => exact ⟨c, rfl⟩
  | c1 :: c2 :: rest, h =>
    exfalso
    have h1 := Char.utf8Size_pos c1
    have h2 := Char.utf8Size_pos c2
    have h3 := utf8ByteSizeGo_ge rest
    simp only [String.utf8ByteSize.go] at h
    omega

theorem utf8Size_one_of_ascii (c : Char) (h : c.toNat ≤ 127) :
    c.utf8Size = 1 := by
  have hval : c.val ≤ 127 := by
    rw [UInt32.le_def, BitVec.le_def]
    exact h
  simp [Char.utf8Size, hval]

theorem mk_singleton_byteSize (c : Char) (h : c.toNat ≤ 127) :
    (String.mk [c]).utf8ByteSize = 1 := by
  simp [String.utf8ByteSize, String.utf8ByteSize.go, utf8Size_one_of_ascii c h]

theorem is_sym_iff (s : String) : Chord.is_sym s = true ↔ isSymSpec s := by
  by_cases hsp : s = "Space"
  · subst hsp
    simp only [Chord.is_sym, if_pos rfl]
    exact ⟨fun _ => Or.inl rfl, fun _ => rfl⟩
  · rw [Chord.is_sym, if_neg hsp]
    by_cases hb : s.utf8ByteSize = 1
    · rw [if_neg (fun hne => hne hb)]
      obtain ⟨c, hc⟩ := byteSize_one s hb
      have hhead : s.data.headD 'A' = c := by rw [hc]; rfl
      rw [hhead, charIsDigit36_iff]
      constructor
      · intro h2
        exact Or.inr ⟨c, by cases s; cases hc; rfl, h2⟩
      · rintro (h2 | ⟨c2, hc2, h2⟩)
        · exact absurd h2 hsp
        · have : c2 = c := by
            have := congrArg String.data hc2
            rw [hc] at this
            simp at this
            exact this.symm
          subst this
          exact h2
    · rw [if_pos hb]
      simp only [Bool.false_eq_true, false_iff]
      rintro (h2 | ⟨c, hc, h2⟩)
      · exact hsp h2
      · subst hc
        exact hb (mk_singleton_byteSize c (by omega))

theorem is_ctrl_iff (s : String) : Chord.is_ctrl s = true ↔ s = "Ctrl" := by
  simp [Chord.is_ctrl]

theorem check_valid_iff (ks : List String) :
    Chord.check_valid ⟨ks⟩ = .ok () ↔
      ((∃ s, ks = [s] ∧ Chord.is_sym s = true) ∨
        (∃ s, ks = ["Ctrl", s] ∧ Chord.is_sym s = true)) := by
  rcases ks with _ | ⟨a, _ | ⟨b, _ | ⟨c, rest⟩⟩⟩
  · simp [Chord.check_valid]
  · by_cases hc : Chord.is_ctrl a = true
    · have ha : a = "Ctrl" := (is_ctrl_iff a).mp hc
      subst ha
      simp [Chord.check_valid, Chord.is_ctrl, Chord.is_key]
      decide
    · by_cases hs : Chord.is_sym a = true
      · simp [Chord.check_valid, Chord.is_key, hc, hs]
      · simp [Chord.check_valid, Chord.is_key, hc, hs]
  · by_cases hca : Chord.is_ctrl a = true
    · have ha : a = "Ctrl" := (is_ctrl_iff a).mp hca
      subst ha
      by_cases hcb : Chord.is_ctrl b = true
      · have hb : b = "Ctrl" := (is_ctrl_iff b).mp hcb
        subst hb
        simp [Chord.check_valid, Chord.is_key, Chord.is_ctrl]
        decide
      · have hbne : ¬ b = "Ctrl" := fun hb => hcb ((is_ctrl_iff b).mpr hb)
        by_cases hsb : Chord.is_sym b = true
        · simp [Chord.check_valid, Chord.is_key, Chord.is_ctrl, hbne, hsb]
        · simp [Chord.check_valid, Chord.is_key, Chord.is_ctrl, hbne, hsb]
    · have hane : ¬ a = "Ctrl" := fun ha => hca ((is_ctrl_iff a).mpr ha)
      constructor
      · intro h
        exfalso
        have hctrlfalse : Chord.is_ctrl a = false := by
          simp [Chord.is_ctrl, hane]
        simp only [Chord.check_valid, List.headD_cons, hctrlfalse] at h
        split at h
        · exact absurd h (by simp)
        · split at h
          · rename_i hlen
            simp at hlen
          · split at h
            · simp at h
            · rename_i hlen2
              exact hlen2 (by simp)
      · rintro (⟨s, hks, _⟩ | ⟨s, hks, _⟩)
        · exact absurd hks (by intro hcontra; cases hcontra)
        · have : a = "Ctrl" := by
            have := congrArg (fun l => List.headD l "") hks
            simpa using this
          exact absurd this hane
  · constructor
    · intro h
      exfalso
      simp only [Chord.check_valid] at h
      split at h
      · exact absurd h (by simp)
      · split at h
        · rename_i hlen
          simp at hlen
        · split at h
          · rename_i hlen2
            simp at hlen2
          · exact absurd h (by simp)
    · rintro (⟨s, hks, _⟩ | ⟨s, hks, _⟩) <;>
        · have := congrArg List.length hks
          simp at this

/-- C5 counterexample: `["Ctrl", "1"]` has a valid claimed shape (sym `1` is
a digit) yet `key_code` fails, and `["A"]` is outside the claimed shapes
(uppercase is not in the claimed symbol set) yet `check_valid` succeeds. -/
theorem c5_counterexample :
    Chord.key_code ⟨["Ctrl", "1"]⟩ = .error (.unknownKeyCode "Ctrl-1") ∧
    Chord.check_valid ⟨["A"]⟩ = .ok () :=
  ⟨rfl, rfl⟩

/-- C5 (amended): every singleton chord over the claimed symbols resolves to
a key code; every `Ctrl` chord over the claimed symbols except `Ctrl-1`
and `Ctrl-9` resolves to a key code; and `check_valid` fails exactly
outside the two shapes once the symbol set also admits uppercase
letters. -/
theorem c5_amended :
    (∀ s, s ∈ claimSyms → ∃ code, Chord.key_code ⟨[s]⟩ = .ok code) ∧
    (∀ s, s ∈ claimSyms → s ≠ "1" → s ≠ "9" →
      ∃ code, Chord.key_code ⟨["Ctrl", s]⟩ = .ok code) ∧
    (∀ ks : List String, ¬ validShapeSpec ks →
      ∃ e, Chord.check_valid ⟨ks⟩ = .error e) := by
  refine ⟨?_, ?_, ?_⟩
  · intro s hs
    fin_cases hs <;> exact ⟨_, rfl⟩
  · intro s hs
    fin_cases hs <;> intro h1 h9 <;>
      first
        | exact ⟨_, rfl⟩
        | exact absurd rfl h1
        | exact absurd rfl h9
  · intro ks h
    by_cases hv : Chord.check_valid ⟨ks⟩ = .ok ()
    · exfalso
      apply h
      rcases (check_valid_iff ks).mp hv with ⟨s, hks, hsym⟩ | ⟨s, hks, hsym⟩
      · exact Or.inl ⟨s, hks, (is_sym_iff s).mp hsym⟩
      · exact Or.inr ⟨s, hks, (is_sym_iff s).mp hsym⟩
    · cases hres : Chord.check_valid ⟨ks⟩ with
      | error e => exact ⟨e, rfl⟩
      | ok u => cases u; exact absurd hres hv

/-- Closed witness for C5, applying all three conjuncts of the amended claim
at concrete inputs. -/
theorem c5_witness :
    (∃ code, Chord.key_code ⟨["a"]⟩ = .ok code) ∧
    (∃ code, Chord.key_code ⟨["Ctrl", "b"]⟩ = .ok code) ∧
    (∃ e, Chord.check_valid ⟨([] : List String)⟩ = .error e) :=
  ⟨c5_amended.1 "a" (by decide),
   c5_amended.2.1 "b" (by decide) (by decide) (by decide),
   c5_amended.2.2 [] (by rintro (⟨s, h, _⟩ | ⟨s, h, _⟩) <;> cases h)⟩

theorem char_le_iff (a b : Char) : a ≤ b ↔ a.toNat ≤ b.toNat := Iff.rfl

theorem lowercase_mem (c : Char) (h1 : 97 ≤ c.toNat) (h2 : c.toNat ≤ 122) :
    c ∈ lowercaseChars := by
  refine List.mem_map.mpr ⟨c.toNat - 97, List.mem_range.mpr (by omega), ?_⟩
  have h3 : 97 + (c.toNat - 97) = c.toNat := by omega
  rw [h3, Char.ofNat_toNat]

theorem wordsTrieO_eq : wordsTrieO = some wtVal := rfl

theorem adv_start (c : Char) :
    Trie.advance (hashTT Char) wtVal .Start c =
      some (if 'S' = c then .Match 5 true
        else if 'C' = c then .Match 1 true else .NoMatch) := by
  by_cases hS : 'S' = c
  · subst hS; rfl
  · by_cases hC : 'C' = c
    · subst hC; rfl
    · rw [if_neg hS, if_neg hC]
      simp only [Trie.advance, Trie.advanceAt, wtVal, hashTT, assocGet,
        List.getElem?_cons_zero, if_neg hS, if_neg hC]

theorem adv_m1 (c : Char) :
    Trie.advance (hashTT Char) wtVal (.Match 1 true) c =
      some (if 't' = c then .Match 2 true else .NoMatch) := by
  by_cases h : 't' = c
  · subst h; rfl
  · rw [if_neg h]
    simp only [Trie.advance, Trie.advanceAt, wtVal, hashTT, assocGet,
      List.getElem?_cons_zero, List.getElem?_cons_succ, if_neg h]

theorem adv_m2 (c : Char) :
    Trie.advance (hashTT Char) wtVal (.Match 2 true) c =
      some (if 'r' = c then .Match 3 true else .NoMatch) := by
  by_cases h : 'r' = c
  · subst h; rfl
  · rw [if_neg h]
    simp only [Trie.advance, Trie.advanceAt, wtVal, hashTT, assocGet,
      List.getElem?_cons_zero, List.getElem?_cons_succ, if_neg h]

theorem adv_m3 (c : Char) :
    Trie.advance (hashTT Char) wtVal (.Match 3 true) c =
      some (if 'l' = c then .Match 4 false else .NoMatch) := by
  by_cases h : 'l' = c
  · subst h; rfl
  · rw [if_neg h]
    simp only [Trie.advance, Trie.advanceAt, wtVal, hashTT, assocGet,
      List.getElem?_cons_zero, List.getElem?_cons_succ, if_neg h]

theorem adv_m5 (c : Char) :
    Trie.advance (hashTT Char) wtVal (.Match 5 true) c =
      some (if 'p' = c then .Match 6 true else .NoMatch) := by
  by_cases h : 'p' = c
  · subst h; rfl
  · rw [if_neg h]
    simp only [Trie.advance, Trie.advanceAt, wtVal, hashTT, assocGet,
      List.getElem?_cons_zero, List.getElem?_cons_succ, if_neg h]

theorem adv_m6 (c : Char) :
    Trie.advance (hashTT Char) wtVal (.Match 6 true) c =
      some (if 'a' = c then .Match 7 true else .NoMatch) := by
  by_cases h : 'a' = c
  · subst h; rfl
  · rw [if_neg h]
    simp only [Trie.advance, Trie.advanceAt, wtVal, hashTT, assocGet,
      List.getElem?_cons_zero, List.getElem?_cons_succ, if_neg h]

theorem adv_m7 (c : Char) :
    Trie.advance (hashTT Char) wtVal (.Match 7 true) c =
      some (if 'c' = c then .Match 8 true else .NoMatch) := by
  by_cases h : 'c' = c
  · subst h; rfl
  · rw [if_neg h]
    simp only [Trie.advance, Trie.advanceAt, wtVal, hashTT, assocGet,
      List.getElem?_cons_zero, List.getElem?_cons_succ, if_neg h]

theorem adv_m8 (c : Char) :
    Trie.advance (hashTT Char) wtVal (.Match 8 true) c =
      some (if 'e' = c then .Match 9 false else .NoMatch) := by
  by_cases h : 'e' = c
  · subst h; rfl
  · rw [if_neg h]
    simp only [Trie.advance, Trie.advanceAt, wtVal, hashTT, assocGet,
      List.getElem?_cons_zero, List.getElem?_cons_succ, if_neg h]

theorem replayAll_C (l : List Char) :
    replayAll ('C' :: l) = .error (.unexpectedChar 'C') := by
  simp only [replayAll]
  rw [if_neg (by decide), if_neg (by decide)]

theorem replayAll_S (l : List Char) :
    replayAll ('S' :: l) = .error (.unexpectedChar 'S') := by
  simp only [replayAll]
  rw [if_neg (by decide), if_neg (by decide)]

theorem toksOK_append {toks ts2 : List Token} (h1 : ∀ t ∈ toks, TokOK t)
    (h2 : ∀ t ∈ ts2, TokOK t) : ∀ t ∈ toks ++ ts2, TokOK t := by
  intro t ht
  rcases List.mem_append.mp ht with hm | hm
  · exact h1 t hm
  · exact h2 t hm

theorem replayAll_toks :
    ∀ (cs : List Char) (ts : List Token), replayAll cs = .ok ts →
      ∀ t ∈ ts, TokOK t := by
  intro cs
  induction cs with
  | nil =>
    intro ts h t ht
    simp only [replayAll] at h
    cases h
    simp at ht
  | cons c rest ih =>
    intro ts h t ht
    simp only [replayAll] at h
    split at h
    · cases hr : replayAll rest with
      | error e => rw [hr] at h; simp [Except.map] at h
      | ok ts2 =>
        rw [hr] at h
        simp only [Except.map] at h
        cases h
        rcases List.mem_cons.mp ht with rfl | hmem
        · exact trivial
        · exact ih ts2 hr t hmem
    · split at h
      · rename_i hrange
        cases hr : replayAll rest with
        | error e => rw [hr] at h; simp [Except.map] at h
        | ok ts2 =>
          rw [hr] at h
          simp only [Except.map] at h
          cases h
          rcases List.mem_cons.mp ht with rfl | hmem
          · exact Or.inr (Or.inr ⟨c, rfl, hrange.1, hrange.2⟩)
          · exact ih ts2 hr t hmem
      · cases h

theorem tokenizeGo_toks :
    ∀ (src : List Char) (cur : TrieCursor) (wc : List Char)
      (toks : List Token) (res : List Token),
      StateOK cur wc → (∀ t ∈ toks, TokOK t) →
      tokenizeGo wtVal cur wc toks src = some (.ok res) →
      ∀ t ∈ res, TokOK t := by
  intro src
  induction src with
  | nil =>
    intro cur wc toks res _ htoks h
    simp only [tokenizeGo] at h
    cases h
    exact htoks
  | cons c rest ih =>
    intro cur wc toks res h0 htoks h
    simp only [tokenizeGo] at h
    by_cases hws : c.isWhitespace = true
    · rw [if_pos hws] at h
      exact ih cur wc toks res h0 htoks h
    · rw [if_neg hws] at h
      rcases h0 with hA | hA | hA | hA | hA | hA | hA | hA <;>
        obtain ⟨rfl, rfl⟩ := hA
      · -- Start, buffer empty
        rw [adv_start] at h
        by_cases hS : 'S' = c
        · rw [if_pos hS] at h
          subst hS
          exact ih _ _ _ _ (Or.inr (Or.inr (Or.inr (Or.inr (Or.inl ⟨rfl, rfl⟩)))))
            htoks h
        · rw [if_neg hS] at h
          by_cases hC : 'C' = c
          · rw [if_pos hC] at h
            subst hC
            exact ih _ _ _ _ (Or.inr (Or.inl ⟨rfl, rfl⟩)) htoks h
          · rw [if_neg hC] at h
            cases hr : replayAll ([] ++ [c]) with
            | error e =>
              rw [hr] at h
              exact absurd h (by simp)
            | ok newToks =>
              rw [hr] at h
              exact ih _ _ _ _ (Or.inl ⟨rfl, rfl⟩)
                (toksOK_append htoks (replayAll_toks _ _ hr)) h
      · -- Match 1, buffer "C"
        rw [adv_m1] at h
        by_cases hc : 't' = c
        · rw [if_pos hc] at h
          subst hc
          exact ih _ _ _ _ (Or.inr (Or.inr (Or.inl ⟨rfl, rfl⟩))) htoks h
        · rw [if_neg hc] at h
          rw [show (['C'] ++ [c] : List Char) = 'C' :: [c] from rfl,
            replayAll_C] at h
          exact absurd h (by simp)
      · -- Match 2, buffer "Ct"
        rw [adv_m2] at h
        by_cases hc : 'r' = c
        · rw [if_pos hc] at h
          subst hc
          exact ih _ _ _ _ (Or.inr (Or.inr (Or.inr (Or.inl ⟨rfl, rfl⟩)))) htoks h
        · rw [if_neg hc] at h
          rw [show (['C', 't'] ++ [c] : List Char) = 'C' :: ['t', c] from rfl,
            replayAll_C] at h
          exact absurd h (by simp)
      · -- Match 3, buffer "Ctr"
        rw [adv_m3] at h
        by_cases hc : 'l' = c
        · rw [if_pos hc] at h
          subst hc
          refine ih _ _ _ _ (Or.inl ⟨rfl, rfl⟩)
            (toksOK_append htoks ?_) h
          intro t ht
          simp only [List.mem_singleton] at ht
          subst ht
          exact Or.inl rfl
        · rw [if_neg hc] at h
          rw [show (['C', 't', 'r'] ++ [c] : List Char) = 'C' :: ['t', 'r', c]
            from rfl, replayAll_C] at h
          exact absurd h (by simp)
      · -- Match 5, buffer "S"
        rw [adv_m5] at h
        by_cases hc : 'p' = c
        · rw [if_pos hc] at h
          subst hc
          exact ih _ _ _ _
            (Or.inr (Or.inr (Or.inr (Or.inr (Or.inr (Or.inl ⟨rfl, rfl⟩))))))
            htoks h
        · rw [if_neg hc] at h
          rw [show (['S'] ++ [c] : List Char) = 'S' :: [c] from rfl,
            replayAll_S] at h
          exact absurd h (by simp)
      · -- Match 6, buffer "Sp"
        rw [adv_m6] at h
        by_cases hc : 'a' = c
        · rw [if_pos hc] at h
          subst hc
          exact ih _ _ _ _
            (Or.inr (Or.inr (Or.inr (Or.inr (Or.inr (Or.inr (Or.inl ⟨rfl, rfl⟩)))))))
            htoks h
        · rw [if_neg hc] at h
          rw [show (['S', 'p'] ++ [c] : List Char) = 'S' :: ['p', c] from rfl,
            replayAll_S] at h
          exact absurd h (by simp)
      · -- Match 7, buffer "Spa"
        rw [adv_m7] at h
        by_cases hc : 'c' = c
        · rw [if_pos hc] at h
          subst hc
          exact ih _ _ _ _
            (Or.inr (Or.inr (Or.inr (Or.inr (Or.inr (Or.inr (Or.inr ⟨rfl, rfl⟩)))))))
            htoks h
        · rw [if_neg hc] at h
          rw [show (['S', 'p', 'a'] ++ [c] : List Char) = 'S' :: ['p', 'a', c]
            from rfl, replayAll_S] at h
          exact absurd h (by simp)
      · -- Match 8, buffer "Spac"
        rw [adv_m8] at h
        by_cases hc : 'e' = c
        · rw [if_pos hc] at h
          subst hc
          refine ih _ _ _ _ (Or.inl ⟨rfl, rfl⟩)
            (toksOK_append htoks ?_) h
          intro t ht
          simp only [List.mem_singleton] at ht
          subst ht
          exact Or.inr (Or.inl rfl)
        · rw [if_neg hc] at h
          rw [show (['S', 'p', 'a', 'c'] ++ [c] : List Char) =
            'S' :: ['p', 'a', 'c', c] from rfl, replayAll_S] at h
          exact absurd h (by simp)

theorem tokenize_toks (src : List Char) (ts : List Token)
    (h : tokenize src = some (.ok ts)) : ∀ t ∈ ts, TokOK t := by
  simp only [tokenize, wordsTrieO_eq] at h
  exact tokenizeGo_toks src _ _ _ _ (Or.inl ⟨rfl, rfl⟩) (by intro t ht; simp at ht) h

theorem parseLoop_keys :
    ∀ (tokens : List Token) (chords : List Chord) (keys : List String)
      (sd : Bool) (res : List Chord),
      (∀ t ∈ tokens, TokOK t) → (∀ k ∈ keys, KeyOK k) →
      (∀ ch ∈ chords, ∀ k ∈ ch.keys, KeyOK k) →
      parseLoop tokens chords keys sd = .ok res →
      ∀ ch ∈ res, ∀ k ∈ ch.keys, KeyOK k := by
  intro tokens
  induction tokens with
  | nil =>
    intro chords keys sd res _ hkeys hchords h
    simp only [parseLoop] at h
    split at h
    · cases h
      intro ch hch
      rcases List.mem_append.mp hch with hm | hm
      · exact hchords ch hm
      · simp only [List.mem_singleton] at hm
        subst hm
        exact hkeys
    · cases h
      exact hchords
  | cons t rest ih =>
    intro chords keys sd res htoks hkeys hchords h
    cases t with
    | Key k =>
      have hk : KeyOK k := htoks (.Key k) (by simp)
      simp only [parseLoop] at h
      split at h
      · refine ih chords (keys ++ [k]) false res
          (fun t2 ht2 => htoks t2 (List.mem_cons_of_mem _ ht2)) ?_ hchords h
        intro k2 hk2
        rcases List.mem_append.mp hk2 with hm | hm
        · exact hkeys k2 hm
        · simp only [List.mem_singleton] at hm
          subst hm
          exact hk
      · refine ih (chords ++ [⟨keys⟩]) [k] false res
          (fun t2 ht2 => htoks t2 (List.mem_cons_of_mem _ ht2)) ?_ ?_ h
        · intro k2 hk2
          simp only [List.mem_singleton] at hk2
          subst hk2
          exact hk
        · intro ch hch
          rcases List.mem_append.mp hch with hm | hm
          · exact hchords ch hm
          · simp only [List.mem_singleton] at hm
            subst hm
            exact hkeys
    | Dash =>
      simp only [parseLoop] at h
      split at h
      · exact absurd h (by simp)
      · exact ih chords keys true res
          (fun t2 ht2 => htoks t2 (List.mem_cons_of_mem _ ht2)) hkeys hchords h

theorem parseLoop_error :
    ∀ (tokens : List Token) (chords : List Chord) (keys : List String)
      (sd : Bool) (e : KbError),
      parseLoop tokens chords keys sd = .error e → e = .unexpectedDash := by
  intro tokens
  induction tokens with
  | nil =>
    intro chords keys sd e h
    simp only [parseLoop] at h
    split at h <;> cases h
  | cons t rest ih =>
    intro chords keys sd e h
    cases t with
    | Key k =>
      simp only [parseLoop] at h
      split at h
      · exact ih _ _ _ _ h
      · exact ih _ _ _ _ h
    | Dash =>
      simp only [parseLoop] at h
      split at h
      · cases h
        rfl
      · exact ih _ _ _ _ h

theorem parse_error (tokens : List Token) (e : KbError)
    (h : parse tokens = .error e) : e = .unexpectedDash := by
  simp only [parse] at h
  split at h
  · cases h
    exact parseLoop_error tokens _ _ _ _ (by assumption)
  · cases h

theorem parse_keys (tokens : List Token) (seq : Sequence)
    (htoks : ∀ t ∈ tokens, TokOK t) (h : parse tokens = .ok seq) :
    ∀ ch ∈ seq.chords, ∀ k ∈ ch.keys, KeyOK k := by
  simp only [parse] at h
  split at h
  · cases h
  · rename_i chords hloop
    cases h
    exact parseLoop_keys tokens [] [] true chords htoks
      (by intro k hk; simp at hk) (by intro ch hch; simp at hch) hloop

theorem chord_mem_chordsAll (ch : Chord)
    (hkeys : ∀ k ∈ ch.keys, KeyOK k)
    (hvalid : ch.check_valid = .ok ()) : ch ∈ chordsAll := by
  obtain ⟨ks⟩ := ch
  rcases (check_valid_iff ks).mp hvalid with ⟨s, hks, hsym⟩ | ⟨s, hks, hsym⟩
  · subst hks
    have hs : KeyOK s := hkeys s (by simp)
    have hmem : s ∈ lexSyms := by
      rcases hs with rfl | rfl | ⟨c, rfl, h1, h2⟩
      · exact absurd hsym (by decide)
      · exact List.mem_cons_self _ _
      · exact List.mem_cons_of_mem _
          (List.mem_map.mpr
            ⟨c, lowercase_mem c ((char_le_iff 'a' c).mp h1)
              ((char_le_iff c 'z').mp h2), rfl⟩)
    exact List.mem_append.mpr (Or.inl (List.mem_map.mpr ⟨s, hmem, rfl⟩))
  · subst hks
    have hs : KeyOK s := hkeys s (by simp)
    have hmem : s ∈ lexSyms := by
      rcases hs with rfl | rfl | ⟨c, rfl, h1, h2⟩
      · exact absurd hsym (by decide)
      · exact List.mem_cons_self _ _
      · exact List.mem_cons_of_mem _
          (List.mem_map.mpr
            ⟨c, lowercase_mem c ((char_le_iff 'a' c).mp h1)
              ((char_le_iff c 'z').mp h2), rfl⟩)
    exact List.mem_append.mpr (Or.inr (List.mem_map.mpr ⟨s, hmem, rfl⟩))

theorem assocGet_none_not_mem {σ : Type} [DecidableEq σ] :
    ∀ (tab : List (σ × Nat)) (x : σ), assocGet tab x = none →
      x ∉ tab.map Prod.fst := by
  intro tab x
  induction tab with
  | nil =>
    intro _ hmem
    simp at hmem
  | cons p rest ih =>
    obtain ⟨k, v⟩ := p
    intro hget hmem
    simp only [assocGet] at hget
    split at hget
    · cases hget
    · rename_i hne
      simp only [List.map_cons, List.mem_cons] at hmem
      rcases hmem with rfl | hmem
      · exact hne rfl
      · exact ih hget hmem

theorem check_valid_error_not_limit (c : Chord) (e : KbError)
    (h : c.check_valid = .error e) : e.isChordLimit = false := by
  simp only [Chord.check_valid] at h
  split at h
  · cases h; rfl
  · split at h
    · split at h
      · cases h; rfl
      · cases h
    · split at h
      · split at h
        · cases h; rfl
        · split at h
          · cases h; rfl
          · cases h
      · cases h; rfl

theorem key_code_error_not_limit (c : Chord) (e : KbError)
    (h : c.key_code = .error e) : e.isChordLimit = false := by
  simp only [Chord.key_code] at h
  split at h
  · rename_i e2 hcv
    cases h
    exact check_valid_error_not_limit c _ hcv
  · split at h
    · split at h
      · split at h <;> cases h
      · cases h; rfl
    · split at h
      · split at h
        · cases h
        · cases h; rfl
      · cases h; rfl

theorem key_code_ok_valid (c : Chord) (code : Nat) (h : c.key_code = .ok code) :
    c.check_valid = .ok () := by
  simp only [Chord.key_code] at h
  split at h
  · cases h
  · rename_i u hcv
    cases u
    exact hcv

theorem atomTab_length_le (st : NewSt) (hat : AtomTabOK st) :
    st.atomTab.length ≤ 54 := by
  have hsub : (st.atomTab.map Prod.fst) ⊆ chordsAll := fun x hx => hat.2.1 x hx
  have hper := List.subperm_of_subset hat.1 hsub
  have hle := hper.length_le
  rw [List.length_map] at hle
  have hall : chordsAll.length = 54 := rfl
  omega

theorem procChords_inv :
    ∀ (chords : List Chord) (st : NewSt) (res : Except KbError NewSt),
      AtomTabOK st → (∀ ch ∈ chords, ∀ k ∈ ch.keys, KeyOK k) →
      procChords st chords = some res →
      (∀ e, res = .error e → e.isChordLimit = false) ∧
      (∀ st2, res = .ok st2 → AtomTabOK st2) := by
  intro chords
  induction chords with
  | nil =>
    intro st res hat _ h
    simp only [procChords] at h
    cases h
    exact ⟨(fun e he => nomatch he), (fun st2 hst => by cases hst; exact hat)⟩
  | cons ch rest ih =>
    intro st res hat hkeys h
    have hch : ∀ k ∈ ch.keys, KeyOK k := hkeys ch (by simp)
    have hrest : ∀ ch2 ∈ rest, ∀ k ∈ ch2.keys, KeyOK k :=
      fun ch2 h2 => hkeys ch2 (List.mem_cons_of_mem _ h2)
    have hlen : st.atomTab.length ≤ 54 := atomTab_length_le st hat
    have hcnt : st.counter = st.atomTab.length := hat.2.2
    simp only [procChords] at h
    split at h
    · rename_i e2 hkc
      cases h
      exact ⟨fun e he => by cases he; exact key_code_error_not_limit ch _ hkc,
             fun st2 hst => nomatch hst⟩
    · rename_i code hkc
      split at h
      · -- existing atom: counter unchanged
        split at h
        · rename_i hguard
          exact absurd hguard (by omega)
        · split at h
          · exact absurd h (by simp)
          · rename_i chords2 hins
            exact ih { st with chords := chords2 } res
              ⟨hat.1, hat.2.1, hat.2.2⟩ hrest h
      · -- fresh atom: table extended, counter bumped
        rename_i hget
        split at h
        · rename_i hguard
          exact absurd hguard (by omega)
        · split at h
          · exact absurd h (by simp)
          · rename_i chords2 hins
            refine ih _ res ⟨?_, ?_, ?_⟩ hrest h
            · rw [List.map_append]
              rw [List.nodup_append]
              refine ⟨hat.1, List.nodup_singleton _, ?_⟩
              intro x hx hx2
              simp only [List.map_cons, List.map_nil, List.mem_singleton] at hx2
              subst hx2
              exact assocGet_none_not_mem st.atomTab x hget hx
            · intro ch2 hch2
              rw [List.map_append] at hch2
              rcases List.mem_append.mp hch2 with hm | hm
              · exact hat.2.1 ch2 hm
              · simp only [List.map_cons, List.map_nil, List.mem_singleton] at hm
                subst hm
                exact chord_mem_chordsAll ch2 hch
                  (key_code_ok_valid ch2 code hkc)
            · simp only [List.length_append, List.length_singleton]
              omega

theorem procBinding_inv (st : NewSt) (src : String) (action : Action)
    (res : Except KbError NewSt) (hat : AtomTabOK st)
    (h : procBinding st src action = some res) :
    (∀ e, res = .error e → e.isChordLimit = false) ∧
    (∀ st2, res = .ok st2 → AtomTabOK st2) := by
  simp only [procBinding] at h
  split at h
  · exact absurd h (by simp)
  · rename_i e2 htok
    cases h
    refine ⟨fun e he => ?_, fun st2 hst => nomatch hst⟩
    cases he
    rcases tokenize_shape _ _ htok with ⟨ts, hts⟩ | ⟨c2, hc2⟩
    · cases hts
    · cases hc2
      rfl
  · rename_i tokens htok
    have htoks : ∀ t ∈ tokens, TokOK t := tokenize_toks _ _ htok
    split at h
    · rename_i e2 hparse
      cases h
      refine ⟨fun e he => ?_, fun st2 hst => nomatch hst⟩
      cases he
      rw [parse_error _ _ hparse]
      rfl
    · rename_i seq hparse
      have hchords := parse_keys _ _ htoks hparse
      split at h
      · exact absurd h (by simp)
      · rename_i e2 hproc
        cases h
        have hres := (procChords_inv seq.chords st _ hat hchords hproc).1 e2 rfl
        exact ⟨fun e he => by cases he; exact hres, fun st2 hst => nomatch hst⟩
      · rename_i st1 hproc
        have hat1 : AtomTabOK st1 :=
          (procChords_inv seq.chords st _ hat hchords hproc).2 st1 rfl
        split at h
        · exact absurd h (by simp)
        · split at h
          · exact absurd h (by simp)
          · rename_i seqs2 hins
            cases h
            exact ⟨(fun e he => nomatch he), (fun st2 hst => by cases hst; exact hat1)⟩

theorem newGo_inv :
    ∀ (bs : List (String × Action)) (st : NewSt) (res : Except KbError NewSt),
      AtomTabOK st → newGo st bs = some res →
      (∀ e, res = .error e → e.isChordLimit = false) := by
  intro bs
  induction bs with
  | nil =>
    intro st res hat h e he
    simp only [newGo] at h
    cases h
    cases he
  | cons b rest ih =>
    intro st res hat h e he
    simp only [newGo] at h
    split at h
    · exact absurd h (by simp)
    · rename_i e2 hbind
      cases h
      cases he
      exact (procBinding_inv st b.1 b.2 _ hat hbind).1 e rfl
    · rename_i st1 hbind
      have hat1 : AtomTabOK st1 := (procBinding_inv st b.1 b.2 _ hat hbind).2 st1 rfl
      exact ih st1 res hat1 h e he

/-- C4: `Bindings::new` never fails with the chord-limit error at all: the
lexer admits only 27 key labels, so at most 54 distinct chords can ever be
seen, the atom counter never reaches the 255 guard, and both sides of the
claimed equivalence ("fails iff more than 255 distinct chords") are false
on every binding set. -/
theorem c4_no_chord_limit (bs : List (String × Action)) (e : KbError)
    (h : Bindings.new bs = some (.error e)) : e.isChordLimit = false := by
  simp only [Bindings.new] at h
  split at h
  · exact absurd h (by simp)
  · rename_i e2 hgo
    cases h
    exact newGo_inv bs initSt _
      ⟨List.nodup_nil, by intro ch hch; simp [initSt] at hch, rfl⟩ hgo e rfl
  · exact absurd h (by simp)

/-- Closed witness for C4: the binding `"A"` fails to compile (uppercase is
rejected by the lexer), and that error is not the chord-limit error. -/
theorem c4_witness : (KbError.unexpectedChar 'A').isChordLimit = false :=
  c4_no_chord_limit [("A", Action.Detach)] (KbError.unexpectedChar 'A') rfl

theorem nodup_idx_eq {α : Type} {l : List α} (hnd : l.Nodup) {i j : Nat} {x : α}
    (hi : l[i]? = some x) (hj : l[j]? = some x) : i = j := by
  obtain ⟨hib, hix⟩ := List.getElem?_eq_some.mp hi
  obtain ⟨hjb, hjx⟩ := List.getElem?_eq_some.mp hj
  exact (List.Nodup.getElem_inj_iff hnd).mp (hix.trans hjx.symm)

theorem idx_lt_of_getElem? {α : Type} {l : List α} {i : Nat} {x : α}
    (h : l[i]? = some x) : i < l.length :=
  (List.getElem?_eq_some.mp h).1

theorem hwalk_append {σ V : Type} [DecidableEq σ] (t : Trie V (List (σ × Nat))) :
    ∀ (xs ys : List σ) (i : Nat),
      hwalk t i (xs ++ ys) =
        match hwalk t i xs with
        | none => none
        | some j => hwalk t j ys := by
  intro xs
  induction xs with
  | nil => intro ys i; rfl
  | cons s rest ih =>
    intro ys i
    simp only [List.cons_append, hwalk]
    cases hE : entryH t i s with
    | none => rfl
    | some j => exact ih ys j

theorem walk_path {σ V : Type} [DecidableEq σ] {t : Trie V (List (σ × Nat))}
    {P : List (List σ)} (inv : InvP t P) :
    ∀ (w : List σ) (i j : Nat) (pi : List σ),
      P[i]? = some pi → hwalk t i w = some j → P[j]? = some (pi ++ w) := by
  intro w
  induction w with
  | nil =>
    intro i j pi hpi hw
    simp only [hwalk] at hw
    cases hw
    simpa using hpi
  | cons s rest ih =>
    intro i j pi hpi hw
    simp only [hwalk] at hw
    cases hE : entryH t i s with
    | none => rw [hE] at hw; cases hw
    | some k =>
      rw [hE] at hw
      obtain ⟨pi2, hpi2, hpk⟩ := inv.entries i s k hE
      rw [hpi] at hpi2
      cases hpi2
      have := ih k j (pi ++ [s]) hpk hw
      simpa [List.append_assoc] using this

theorem invP_new {σ V : Type} [DecidableEq σ] :
    InvP (Trie.new (hashTT σ) : Trie V (List (σ × Nat))) [[]] := by
  refine ⟨rfl, rfl, List.nodup_singleton _, ?_, ?_, ?_⟩
  · intro i s j h
    exfalso
    match i with
    | 0 =>
      have h2 : assocGet ([] : List (σ × Nat)) s = some j := h
      simp [assocGet] at h2
    | n + 1 =>
      have h2 : (none : Option Nat) = some j := h
      cases h2
  · intro j pj hpj hj
    have : j < 1 := by simpa using idx_lt_of_getElem? hpj
    omega
  · intro j pj hpj
    have hj : j < 1 := by simpa using idx_lt_of_getElem? hpj
    have hj0 : j = 0 := by omega
    subst hj0
    simp only [List.getElem?_cons_zero] at hpj
    cases hpj
    rfl

theorem ext_nodes {σ V : Type} [DecidableEq σ] (t : Trie V (List (σ × Nat)))
    (cur : Nat) (node : TrieNode V (List (σ × Nat))) (s0 : σ)
    (hnode : t.nodes[cur]? = some node) (i : Nat) :
    (extTrie t cur node s0).nodes[i]? =
      if i = cur then
        some (TrieNode.mk node.value ((s0, t.nodes.length) :: node.tab))
      else if i < t.nodes.length then t.nodes[i]?
      else if i = t.nodes.length then some (TrieNode.mk none []) else none := by
  have hcur : cur < t.nodes.length := idx_lt_of_getElem? hnode
  simp only [extTrie]
  by_cases hc : i = cur
  · subst hc
    rw [if_pos rfl]
    exact List.getElem?_set_self (by simp; omega)
  · rw [if_neg hc]
    rw [List.getElem?_set_ne (fun h2 => hc h2.symm)]
    by_cases hlt : i < t.nodes.length
    · rw [if_pos hlt]
      rw [List.getElem?_append, if_pos hlt]
    · rw [if_neg hlt]
      by_cases heq : i = t.nodes.length
      · rw [if_pos heq]
        subst heq
        exact List.getElem?_concat_length _ _
      · rw [if_neg heq]
        apply List.getElem?_eq_none
        simp only [List.length_append, List.length_singleton]
        omega

theorem ext_entry {σ V : Type} [DecidableEq σ] (t : Trie V (List (σ × Nat)))
    (cur : Nat) (node : TrieNode V (List (σ × Nat))) (s0 : σ)
    (hnode : t.nodes[cur]? = some node) (i : Nat) (s : σ) :
    entryH (extTrie t cur node s0) i s =
      if i = cur ∧ s0 = s then some t.nodes.length
      else if i = t.nodes.length then none
      else entryH t i s := by
  have hcur : cur < t.nodes.length := idx_lt_of_getElem? hnode
  by_cases hcs : i = cur ∧ s0 = s
  · obtain ⟨rfl, rfl⟩ := hcs
    rw [if_pos ⟨rfl, rfl⟩]
    simp only [entryH, ext_nodes t i node s0 hnode i, if_pos rfl]
    simp [assocGet]
  · rw [if_neg hcs]
    by_cases hi : i = t.nodes.length
    · subst hi
      rw [if_pos rfl]
      have hne : ¬ t.nodes.length = cur := by omega
      simp only [entryH, ext_nodes t cur node s0 hnode t.nodes.length,
        if_neg hne, if_neg (lt_irrefl _), if_pos rfl]
      simp [assocGet]
    · rw [if_neg hi]
      by_cases hc : i = cur
      · subst hc
        have hs : ¬ s0 = s := fun h2 => hcs ⟨rfl, h2⟩
        simp only [entryH, ext_nodes t i node s0 hnode i, if_pos rfl, hnode]
        simp [assocGet, hs]
      · by_cases hlt : i < t.nodes.length
        · simp only [entryH, ext_nodes t cur node s0 hnode i, if_neg hc,
            if_pos hlt]
        · have hnone : t.nodes[i]? = none :=
            List.getElem?_eq_none (by omega)
          simp only [entryH, ext_nodes t cur node s0 hnode i, if_neg hc,
            if_neg hlt, if_neg hi, hnone]

theorem ext_entry_preserve {σ V : Type} [DecidableEq σ]
    (t : Trie V (List (σ × Nat))) (cur : Nat)
    (node : TrieNode V (List (σ × Nat))) (s0 : σ)
    (hnode : t.nodes[cur]? = some node)
    (hget : assocGet node.tab s0 = none) (i : Nat) (s : σ) (j : Nat)
    (h : entryH t i s = some j) :
    entryH (extTrie t cur node s0) i s = some j := by
  rw [ext_entry t cur node s0 hnode i s]
  have h1 : ¬ (i = cur ∧ s0 = s) := by
    rintro ⟨rfl, rfl⟩
    have : entryH t i s0 = assocGet node.tab s0 := by
      simp [entryH, hnode]
    rw [this, hget] at h
    cases h
  have h2 : ¬ i = t.nodes.length := by
    intro h2
    subst h2
    have hnone : t.nodes[t.nodes.length]? = none :=
      List.getElem?_eq_none (le_refl _)
    simp [entryH, hnone] at h
  rw [if_neg h1, if_neg h2]
  exact h

theorem ext_walk_preserve {σ V : Type} [DecidableEq σ]
    (t : Trie V (List (σ × Nat))) (cur : Nat)
    (node : TrieNode V (List (σ × Nat))) (s0 : σ)
    (hnode : t.nodes[cur]? = some node)
    (hget : assocGet node.tab s0 = none) :
    ∀ (w : List σ) (i j : Nat), hwalk t i w = some j →
      hwalk (extTrie t cur node s0) i w = some j := by
  intro w
  induction w with
  | nil => intro i j h; exact h
  | cons s rest ih =>
    intro i j h
    simp only [hwalk] at h ⊢
    cases hE : entryH t i s with
    | none => rw [hE] at h; cases h
    | some k =>
      rw [hE] at h
      rw [ext_entry_preserve t cur node s0 hnode hget i s k hE]
      exact ih k j h

theorem insertFrom_spec {σ V : Type} [DecidableEq σ] :
    ∀ (w : List σ) (t : Trie V (List (σ × Nat))) (P : List (List σ))
      (cur : Nat) (pcur : List σ),
      InvP t P → P[cur]? = some pcur →
      ∃ t1 fin P1,
        Trie.insertFrom (hashTT σ) t cur w = some (t1, fin) ∧
        InvP t1 P1 ∧
        (∀ j, j < P.length → P1[j]? = P[j]?) ∧
        P1[fin]? = some (pcur ++ w) ∧
        (∀ (j : Nat) (nd : TrieNode V (List (σ × Nat))), t.nodes[j]? = some nd →
          ∃ (nd1 : TrieNode V (List (σ × Nat))),
            t1.nodes[j]? = some nd1 ∧ nd1.value = nd.value) ∧
        (∀ (j : Nat) (nd1 : TrieNode V (List (σ × Nat))),
          t1.nodes[j]? = some nd1 → t.nodes.length ≤ j →
          nd1.value = none) ∧
        t.nodes.length ≤ t1.nodes.length ∧
        P.length ≤ P1.length := by
  intro w
  induction w with
  | nil =>
    intro t P cur pcur inv hcur
    refine ⟨t, cur, P, rfl, inv, fun j _ => rfl, by simpa using hcur,
      fun j nd h => ⟨nd, h, rfl⟩, ?_, le_refl _, le_refl _⟩
    intro j nd1 h hle
    have := idx_lt_of_getElem? h
    omega
  | cons s0 rest ih =>
    intro t P cur pcur inv hcur
    have hlenPQ := inv.len_eq
    have hcurltP : cur < P.length := idx_lt_of_getElem? hcur
    have hcurlt : cur < t.nodes.length := by omega
    obtain ⟨node, hnode⟩ : ∃ nd, t.nodes[cur]? = some nd :=
      ⟨_, List.getElem?_eq_getElem hcurlt⟩
    cases hget : assocGet node.tab s0 with
    | some nxt =>
      have hE : entryH t cur s0 = some nxt := by simp [entryH, hnode, hget]
      obtain ⟨pi, hpi, hnxt⟩ := inv.entries cur s0 nxt hE
      rw [hcur] at hpi
      cases hpi
      obtain ⟨t1, fin, P1, hins, inv1, hext, hfin, hvalpres, hnew, hlen1, hlen2⟩ :=
        ih t P nxt (pcur ++ [s0]) inv hnxt
      refine ⟨t1, fin, P1, ?_, inv1, hext, ?_, hvalpres, hnew, hlen1, hlen2⟩
      · simp only [Trie.insertFrom, hnode, hashTT, hget]
        exact hins
      · simpa [List.append_assoc] using hfin
    | none =>
      have ht2nodes := ext_nodes t cur node s0 hnode
      have ht2entry := ext_entry t cur node s0 hnode
      have ht2len : (extTrie t cur node s0).nodes.length = t.nodes.length + 1 := by
        simp [extTrie]
      have hP2ext : ∀ j, j < P.length →
          (P ++ [pcur ++ [s0]])[j]? = P[j]? := by
        intro j hj
        rw [List.getElem?_append, if_pos hj]
      have hP2idx : (P ++ [pcur ++ [s0]])[t.nodes.length]? =
          some (pcur ++ [s0]) := by
        have hPl : t.nodes.length = P.length := hlenPQ.symm
        rw [hPl]
        exact List.getElem?_concat_length _ _
      have hfresh : (pcur ++ [s0]) ∉ P := by
        intro hmem
        obtain ⟨j, hj⟩ := List.mem_iff_getElem?.mp hmem
        have hj0 : j ≠ 0 := by
          intro h0
          subst h0
          rw [inv.root] at hj
          have : ([] : List σ) = pcur ++ [s0] := by
            injection hj
          exact absurd this.symm (by simp)
        obtain ⟨i2, s2, hE2⟩ := inv.parent j _ hj (Nat.pos_of_ne_zero hj0)
        obtain ⟨pi2, hpi2, hpj2⟩ := inv.entries i2 s2 j hE2
        rw [hj] at hpj2
        injection hpj2 with heq
        obtain ⟨heq1, heq2⟩ := List.append_inj' heq (by simp)
        injection heq2 with hs0 _
        rw [← heq1] at hpi2
        have hi2 : i2 = cur := nodup_idx_eq inv.nodup hpi2 hcur
        subst hi2
        subst hs0
        have hEc : entryH t i2 s0 = assocGet node.tab s0 := by
          simp [entryH, hnode]
        rw [hEc, hget] at hE2
        cases hE2
      have inv2 : InvP (extTrie t cur node s0) (P ++ [pcur ++ [s0]]) := by
        refine ⟨?_, ?_, ?_, ?_, ?_, ?_⟩
        · simp [extTrie]
          omega
        · rw [hP2ext 0 (by omega)]
          exact inv.root
        · rw [List.nodup_append]
          refine ⟨inv.nodup, List.nodup_singleton _, ?_⟩
          intro a ha ha2
          simp only [List.mem_singleton] at ha2
          subst ha2
          exact hfresh ha
        · intro i s j hE
          rw [ht2entry i s] at hE
          split at hE
          · rename_i hcs
            obtain ⟨rfl, rfl⟩ := hcs
            cases hE
            refine ⟨pcur, ?_, ?_⟩
            · rw [hP2ext i hcurltP]
              exact hcur
            · exact hP2idx
          · split at hE
            · cases hE
            · obtain ⟨pi, hpi, hpj⟩ := inv.entries i s j hE
              have hiP : i < P.length := idx_lt_of_getElem? hpi
              have hjP : j < P.length := idx_lt_of_getElem? hpj
              exact ⟨pi, by rw [hP2ext i hiP]; exact hpi,
                by rw [hP2ext j hjP]; exact hpj⟩
        · intro j pj hpj hjpos
          by_cases hj : j < P.length
          · rw [hP2ext j hj] at hpj
            obtain ⟨i2, s2, hE2⟩ := inv.parent j pj hpj hjpos
            exact ⟨i2, s2, ext_entry_preserve t cur node s0 hnode hget i2 s2 j hE2⟩
          · have hjb := idx_lt_of_getElem? hpj
            simp only [List.length_append, List.length_singleton] at hjb
            have hjidx : j = t.nodes.length := by omega
            subst hjidx
            refine ⟨cur, s0, ?_⟩
            rw [ht2entry cur s0, if_pos ⟨rfl, rfl⟩]
        · intro j pj hpj
          by_cases hj : j < P.length
          · rw [hP2ext j hj] at hpj
            exact ext_walk_preserve t cur node s0 hnode hget pj 0 j
              (inv.walk j pj hpj)
          · have hjb := idx_lt_of_getElem? hpj
            simp only [List.length_append, List.length_singleton] at hjb
            have hjidx : j = t.nodes.length := by omega
            subst hjidx
            rw [hP2idx] at hpj
            have hpj2 : pj = pcur ++ [s0] := by
              injection hpj with h2
              exact h2.symm
            subst hpj2
            rw [hwalk_append (extTrie t cur node s0) pcur [s0] 0]
            have hw : hwalk (extTrie t cur node s0) 0 pcur = some cur :=
              ext_walk_preserve t cur node s0 hnode hget pcur 0 cur
                (inv.walk cur pcur hcur)
            rw [hw]
            simp only [hwalk]
            rw [ht2entry cur s0, if_pos ⟨rfl, rfl⟩]
      have hval2 : ∀ (j : Nat) (nd : TrieNode V (List (σ × Nat))),
          t.nodes[j]? = some nd →
          ∃ (nd1 : TrieNode V (List (σ × Nat))),
            (extTrie t cur node s0).nodes[j]? = some nd1 ∧
            nd1.value = nd.value := by
        intro j nd hj
        rw [ht2nodes j]
        by_cases hc : j = cur
        · subst hc
          rw [if_pos rfl]
          rw [hnode] at hj
          injection hj with hj2
          subst hj2
          exact ⟨_, rfl, rfl⟩
        · rw [if_neg hc, if_pos (idx_lt_of_getElem? hj)]
          exact ⟨nd, hj, rfl⟩
      obtain ⟨t1, fin, P1, hins, inv1, hext, hfin, hvalpres, hnewpres, hlen1, hlen2⟩ :=
        ih (extTrie t cur node s0) (P ++ [pcur ++ [s0]]) t.nodes.length
          (pcur ++ [s0]) inv2 hP2idx
      refine ⟨t1, fin, P1, ?_, inv1, ?_, ?_, ?_, ?_, ?_, ?_⟩
      · simp only [Trie.insertFrom, hnode, hashTT, hget]
        exact hins
      · intro j hj
        rw [hext j (by simp only [List.length_append, List.length_singleton]; omega),
          hP2ext j hj]
      · simpa [List.append_assoc] using hfin
      · intro j nd hj
        obtain ⟨nd2, hj2, hv2⟩ := hval2 j nd hj
        obtain ⟨nd1, hj1, hv1⟩ := hvalpres j nd2 hj2
        exact ⟨nd1, hj1, hv1.trans hv2⟩
      · intro j nd1 hj hle
        by_cases hj2 : (extTrie t cur node s0).nodes.length ≤ j
        · exact hnewpres j nd1 hj hj2
        · have hji : j = t.nodes.length := by
            rw [ht2len] at hj2
            omega
          subst hji
          have hfreshnode : (extTrie t cur node s0).nodes[t.nodes.length]? =
              some (TrieNode.mk none []) := by
            rw [ht2nodes]
            rw [if_neg (by omega), if_neg (by omega), if_pos rfl]
          obtain ⟨nd1', hj1, hv1⟩ := hvalpres _ _ hfreshnode
          rw [hj] at hj1
          injection hj1 with hj1e
          subst hj1e
          simpa using hv1
      · rw [ht2len] at hlen1
        omega
      · simp only [List.length_append, List.length_singleton] at hlen2
        omega

theorem setValue_nodes {σ V : Type} [DecidableEq σ] (t1 : Trie V (List (σ × Nat)))
    (fin : Nat) (ndf : TrieNode V (List (σ × Nat))) (v : V)
    (hndf : t1.nodes[fin]? = some ndf) (i : Nat) :
    (Trie.mk (t1.nodes.set fin (TrieNode.mk (some v) ndf.tab))).nodes[i]? =
      if i = fin then some (TrieNode.mk (some v) ndf.tab) else t1.nodes[i]? := by
  by_cases hc : i = fin
  · subst hc
    rw [if_pos rfl]
    exact List.getElem?_set_self (idx_lt_of_getElem? hndf)
  · rw [if_neg hc]
    exact List.getElem?_set_ne (fun h2 => hc h2.symm)

theorem setValue_entry {σ V : Type} [DecidableEq σ] (t1 : Trie V (List (σ × Nat)))
    (fin : Nat) (ndf : TrieNode V (List (σ × Nat))) (v : V)
    (hndf : t1.nodes[fin]? = some ndf) (i : Nat) (s : σ) :
    entryH (Trie.mk (t1.nodes.set fin (TrieNode.mk (some v) ndf.tab))) i s =
      entryH t1 i s := by
  simp only [entryH, setValue_nodes t1 fin ndf v hndf i]
  by_cases hc : i = fin
  · subst hc
    rw [if_pos rfl, hndf]
  · rw [if_neg hc]

theorem hwalk_congr {σ V : Type} [DecidableEq σ]
    (ta tb : Trie V (List (σ × Nat)))
    (hE : ∀ i s, entryH ta i s = entryH tb i s) :
    ∀ (w : List σ) (i : Nat), hwalk ta i w = hwalk tb i w := by
  intro w
  induction w with
  | nil => intro i; rfl
  | cons s rest ih =>
    intro i
    simp only [hwalk, hE i s]
    cases entryH tb i s with
    | none => rfl
    | some j => exact ih j

theorem insert_spec {σ V : Type} [DecidableEq σ] (t : Trie V (List (σ × Nat)))
    (P : List (List σ)) (w : List σ) (v : V) (inv : InvP t P) :
    ∃ t2 P1, Trie.insert (hashTT σ) t w v = some t2 ∧ InvP t2 P1 ∧
      (∀ s, ValuedAt t2 P1 s ↔ (s = w ∨ ValuedAt t P s)) := by
  obtain ⟨t1, fin, P1, hins, inv1, hext, hfin, hvalpres, hnewpres, hlen1, hlen2⟩ :=
    insertFrom_spec w t P 0 [] inv inv.root
  have hfinw : P1[fin]? = some w := by simpa using hfin
  have hfinlt : fin < t1.nodes.length := by
    have h1 := idx_lt_of_getElem? hfinw
    have h2 := inv1.len_eq
    omega
  obtain ⟨ndf, hndf⟩ : ∃ nd, t1.nodes[fin]? = some nd :=
    ⟨_, List.getElem?_eq_getElem hfinlt⟩
  have hlenP : P.length = t.nodes.length := inv.len_eq
  refine ⟨Trie.mk (t1.nodes.set fin (TrieNode.mk (some v) ndf.tab)), P1, ?_, ?_, ?_⟩
  · simp only [Trie.insert, hins, hndf]
  · refine ⟨?_, inv1.root, inv1.nodup, ?_, ?_, ?_⟩
    · simp only [List.length_set]
      exact inv1.len_eq
    · intro i s j hE
      rw [setValue_entry t1 fin ndf v hndf i s] at hE
      exact inv1.entries i s j hE
    · intro j pj hpj hjpos
      obtain ⟨i2, s2, hE2⟩ := inv1.parent j pj hpj hjpos
      exact ⟨i2, s2, by rw [setValue_entry t1 fin ndf v hndf i2 s2]; exact hE2⟩
    · intro j pj hpj
      rw [hwalk_congr _ t1 (setValue_entry t1 fin ndf v hndf) pj 0]
      exact inv1.walk j pj hpj
  · intro s
    constructor
    · rintro ⟨j, nd, hPj, hndj, hval⟩
      rw [setValue_nodes t1 fin ndf v hndf j] at hndj
      by_cases hc : j = fin
      · subst hc
        rw [hfinw] at hPj
        have : s = w := by injection hPj with h2; exact h2.symm
        exact Or.inl this
      · rw [if_neg hc] at hndj
        by_cases hlt : j < t.nodes.length
        · obtain ⟨nd0, hnd0⟩ : ∃ nd0, t.nodes[j]? = some nd0 :=
            ⟨_, List.getElem?_eq_getElem hlt⟩
          obtain ⟨nd1, hj1, hv1⟩ := hvalpres j nd0 hnd0
          rw [hndj] at hj1
          have hnd1 : nd1 = nd := by injection hj1 with h2; exact h2.symm
          subst hnd1
          refine Or.inr ⟨j, nd0, ?_, hnd0, ?_⟩
          · rw [← hext j (by omega)]
            exact hPj
          · rw [← hv1]
            exact hval
        · have := hnewpres j nd hndj (by omega)
          rw [this] at hval
          cases hval
    · rintro (rfl | ⟨j, nd0, hPj, hnd0, hval⟩)
      · refine ⟨fin, TrieNode.mk (some v) ndf.tab, hfinw, ?_, rfl⟩
        rw [setValue_nodes t1 fin ndf v hndf fin, if_pos rfl]
      · have hjP : j < P.length := idx_lt_of_getElem? hPj
        obtain ⟨nd1, hj1, hv1⟩ := hvalpres j nd0 hnd0
        by_cases hc : j = fin
        · subst hc
          refine ⟨j, TrieNode.mk (some v) ndf.tab, ?_, ?_, rfl⟩
          · rw [hext j hjP]
            exact hPj
          · rw [setValue_nodes t1 j ndf v hndf j, if_pos rfl]
        · refine ⟨j, nd1, ?_, ?_, ?_⟩
          · rw [hext j hjP]
            exact hPj
          · rw [setValue_nodes t1 fin ndf v hndf j, if_neg hc]
            exact hj1
          · rw [hv1]
            exact hval

theorem containsGo_spec {σ V : Type} [DecidableEq σ]
    {t : Trie V (List (σ × Nat))} {P : List (List σ)} (inv : InvP t P) :
    ∀ (s : List σ) (i : Nat) (nd : TrieNode V (List (σ × Nat))),
      t.nodes[i]? = some nd → (∃ pi, P[i]? = some pi) →
      ∃ b, Trie.containsGo (hashTT σ) t (.Match i nd.value.isNone) s = some b ∧
        (b = true ↔ ∃ (j : Nat) (ndj : TrieNode V (List (σ × Nat))),
          hwalk t i s = some j ∧ t.nodes[j]? = some ndj ∧
            ndj.value.isSome = true) := by
  intro s
  induction s with
  | nil =>
    intro i nd hnd _
    refine ⟨nd.value.isSome, ?_, ?_⟩
    · simp only [Trie.containsGo]
      cases nd.value <;> rfl
    · constructor
      · intro hv
        exact ⟨i, nd, rfl, hnd, hv⟩
      · rintro ⟨j, ndj, hw, hndj, hv⟩
        have hij : i = j := by injection hw
        subst hij
        rw [hnd] at hndj
        have : ndj = nd := by injection hndj with h2; exact h2.symm
        subst this
        exact hv
  | cons s0 rest ih =>
    intro i nd hnd hpi
    obtain ⟨pi, hpiv⟩ := hpi
    cases hget : assocGet nd.tab s0 with
    | some j =>
      have hE : entryH t i s0 = some j := by simp [entryH, hnd, hget]
      obtain ⟨pi2, hpi2, hpj⟩ := inv.entries i s0 j hE
      have hjP : j < P.length := idx_lt_of_getElem? hpj
      have hjt : j < t.nodes.length := by
        have := inv.len_eq
        omega
      obtain ⟨ndj, hndj⟩ : ∃ ndj, t.nodes[j]? = some ndj :=
        ⟨_, List.getElem?_eq_getElem hjt⟩
      have hadv : Trie.advance (hashTT σ) t (.Match i nd.value.isNone) s0 =
          some (.Match j ndj.value.isNone) := by
        simp [Trie.advance, Trie.advanceAt, hnd, hashTT, hget, hndj]
      obtain ⟨b, hb, hiff⟩ := ih j ndj hndj ⟨pi2 ++ [s0], hpj⟩
      refine ⟨b, ?_, ?_⟩
      · simp only [Trie.containsGo, hadv]
        exact hb
      · rw [hiff]
        have hwstep : hwalk t i (s0 :: rest) = hwalk t j rest := by
          simp [hwalk, hE]
        rw [hwstep]
    | none =>
      have hadv : Trie.advance (hashTT σ) t (.Match i nd.value.isNone) s0 =
          some .NoMatch := by
        simp [Trie.advance, Trie.advanceAt, hnd, hashTT, hget]
      refine ⟨false, ?_, ?_⟩
      · simp only [Trie.containsGo, hadv]
      · simp only [Bool.false_eq_true, false_iff]
        rintro ⟨j, ndj, hw, _, _⟩
        have hE : entryH t i s0 = none := by simp [entryH, hnd, hget]
        simp [hwalk, hE] at hw

theorem walkValued_iff {σ V : Type} [DecidableEq σ]
    {t : Trie V (List (σ × Nat))} {P : List (List σ)} (inv : InvP t P)
    (s : List σ) :
    (∃ (j : Nat) (ndj : TrieNode V (List (σ × Nat))),
      hwalk t 0 s = some j ∧ t.nodes[j]? = some ndj ∧ ndj.value.isSome = true) ↔
      ValuedAt t P s := by
  constructor
  · rintro ⟨j, ndj, hw, hndj, hv⟩
    have := walk_path inv s 0 j [] inv.root hw
    exact ⟨j, ndj, by simpa using this, hndj, hv⟩
  · rintro ⟨j, nd, hPj, hndj, hv⟩
    exact ⟨j, nd, inv.walk j s hPj, hndj, hv⟩

theorem contains_spec {σ V : Type} [DecidableEq σ]
    {t : Trie V (List (σ × Nat))} {P : List (List σ)} (inv : InvP t P)
    (s : List σ) :
    ∃ b, Trie.contains (hashTT σ) t s = some b ∧
      (b = true ↔ ValuedAt t P s) := by
  have hroot0 : 0 < t.nodes.length := by
    have h1 := idx_lt_of_getElem? inv.root
    have h2 := inv.len_eq
    omega
  obtain ⟨root, hroot⟩ : ∃ nd, t.nodes[0]? = some nd :=
    ⟨_, List.getElem?_eq_getElem hroot0⟩
  cases s with
  | nil =>
    refine ⟨root.value.isSome, ?_, ?_⟩
    · simp only [Trie.contains, Trie.containsGo, hroot]
    · constructor
      · intro hv
        exact ⟨0, root, inv.root, hroot, hv⟩
      · rintro ⟨j, nd, hPj, hndj, hv⟩
        have hj0 : j = 0 := nodup_idx_eq inv.nodup hPj inv.root
        subst hj0
        rw [hroot] at hndj
        have : nd = root := by injection hndj with h2; exact h2.symm
        subst this
        exact hv
  | cons s0 rest =>
    cases hget : assocGet root.tab s0 with
    | some j =>
      have hE : entryH t 0 s0 = some j := by simp [entryH, hroot, hget]
      obtain ⟨pi2, hpi2, hpj⟩ := inv.entries 0 s0 j hE
      have hjP : j < P.length := idx_lt_of_getElem? hpj
      have hjt : j < t.nodes.length := by
        have := inv.len_eq
        omega
      obtain ⟨ndj, hndj⟩ : ∃ ndj, t.nodes[j]? = some ndj :=
        ⟨_, List.getElem?_eq_getElem hjt⟩
      have hadv : Trie.advance (hashTT σ) t .Start s0 =
          some (.Match j ndj.value.isNone) := by
        simp [Trie.advance, Trie.advanceAt, hroot, hashTT, hget, hndj]
      obtain ⟨b, hb, hiff⟩ := containsGo_spec inv rest j ndj hndj ⟨pi2 ++ [s0], hpj⟩
      refine ⟨b, ?_, ?_⟩
      · simp only [Trie.contains, Trie.containsGo, hadv]
        exact hb
      · rw [hiff, ← walkValued_iff inv (s0 :: rest)]
        have hwstep : hwalk t 0 (s0 :: rest) = hwalk t j rest := by
          simp [hwalk, hE]
        rw [hwstep]
    | none =>
      have hadv : Trie.advance (hashTT σ) t .Start s0 = some .NoMatch := by
        simp [Trie.advance, Trie.advanceAt, hroot, hashTT, hget]
      refine ⟨false, ?_, ?_⟩
      · simp only [Trie.contains, Trie.containsGo, hadv]
      · simp only [Bool.false_eq_true, false_iff]
        rw [← walkValued_iff inv (s0 :: rest)]
        rintro ⟨j, ndj, hw, _, _⟩
        have hE : entryH t 0 s0 = none := by simp [entryH, hroot, hget]
        simp [hwalk, hE] at hw

theorem valuedAt_new {σ : Type} [DecidableEq σ] (s : List σ) :
    ¬ ValuedAt (Trie.new (hashTT σ) : Trie Unit (List (σ × Nat))) [[]] s := by
  rintro ⟨j, nd, hPj, hndj, hv⟩
  have hj : j < 1 := by simpa using idx_lt_of_getElem? hPj
  have hj0 : j = 0 := by omega
  subst hj0
  have : nd = TrieNode.mk none [] := by
    have h2 : (Trie.new (hashTT σ) : Trie Unit (List (σ × Nat))).nodes[0]? =
        some (TrieNode.mk none []) := rfl
    rw [h2] at hndj
    injection hndj with h3
    exact h3.symm
  subst this
  cases hv

theorem buildGo :
    ∀ (ws : List (List Char)) (t : Trie Unit (List (Char × Nat)))
      (P : List (List Char)), InvP t P →
      ∃ t2 P2,
        ws.foldl
          (fun acc w =>
            match acc with
            | none => none
            | some t => Trie.insert (hashTT Char) t w ())
          (some t) = some t2 ∧
        InvP t2 P2 ∧
        ∀ s, ValuedAt t2 P2 s ↔ (ValuedAt t P s ∨ s ∈ ws) := by
  intro ws
  induction ws with
  | nil =>
    intro t P inv
    exact ⟨t, P, rfl, inv, by simp⟩
  | cons w rest ih =>
    intro t P inv
    obtain ⟨t1, P1, hins, inv1, hval1⟩ := insert_spec t P w () inv
    obtain ⟨t2, P2, hfold, inv2, hval2⟩ := ih t1 P1 inv1
    refine ⟨t2, P2, ?_, inv2, ?_⟩
    · simp only [List.foldl_cons, hins]
      exact hfold
    · intro s
      rw [hval2 s, hval1 s]
      constructor
      · rintro ((rfl | hv) | hr)
        · exact Or.inr (List.mem_cons_self _ _)
        · exact Or.inl hv
        · exact Or.inr (List.mem_cons_of_mem _ hr)
      · rintro (hv | hm)
        · exact Or.inl (Or.inr hv)
        · rcases List.mem_cons.mp hm with rfl | hm2
          · exact Or.inl (Or.inl rfl)
          · exact Or.inr hm2

/-- C8: inserting any finite list of text keys (the empty string included)
into a fresh trie makes `contains` answer `true` exactly on the inserted
keys — in particular `false` on proper prefixes and extensions that were
not themselves inserted. -/
theorem c8_trie_contains (ws : List (List Char)) (s : List Char) :
    ∃ t, buildTrie ws = some t ∧
      Trie.contains (hashTT Char) t s = some (decide (s ∈ ws)) := by
  obtain ⟨t2, P2, hfold, inv2, hval2⟩ :=
    buildGo ws (Trie.new (hashTT Char)) [[]] invP_new
  refine ⟨t2, hfold, ?_⟩
  obtain ⟨b, hc, hiff⟩ := contains_spec inv2 s
  have hiff2 : b = true ↔ s ∈ ws := by
    rw [hiff, hval2 s]
    constructor
    · rintro (hv | hm)
      · exact absurd hv (valuedAt_new s)
      · exact hm
    · exact Or.inr
  have hb : b = decide (s ∈ ws) := by
    by_cases hm : s ∈ ws
    · simp [hm, hiff2.mpr hm]
    · have hne : ¬ b = true := fun h2 => hm (hiff2.mp h2)
      cases b
      · simp [hm]
      · exact absurd rfl hne
  rw [← hb]
  exact hc

end Shpool
